import Mathlib

/-!
# The xv6 buffer cache (`kernel/bio.c`) with a sharded hash directory

A sequential model of `binit`, `bget`, `bread`, `bwrite`, `brelse`, `bpin`
and `bunpin`: calls run one at a time, each by a process `pid`.  A bucket
chain `bufmap[i].next -> ... -> 0` is the list of the pool indices of its
slots, in chain order.  Every operation returns its outcome, the state it
leaves behind and the lock and device events it performed, in program order.
A call that reaches `acquiresleep` on a held sleeplock ends as `sleeping`:
the caller is suspended there.
-/

namespace BufCache

/-! ## Data model -/

/-- Contents of one block (`uchar data[BSIZE]`), opaque to the cache. -/
abbrev Data := List Nat

/-- Modelled from the spec: `struct buf` of `buf.h`, which is absent from the
sources.  Identity, validity flag, the sleeplock (`locked`, `pid` of the
holder), reference count, recency stamp and contents; the `next` link is the
position of the slot in its bucket chain.  The reference count is the number
of outstanding holders, an integer that `refcnt++` and `refcnt--` move by one. -/
structure Buf where
  valid : Nat
  dev : Nat
  blockno : Nat
  locked : Bool
  pid : Nat
  refcnt : Int
  lastuse : Nat
  data : Data
deriving DecidableEq, Repr

/-- The `bcache` structure together with the two collaborators the cache
reads and writes: the tick counter and the block device, a map from
`(dev, blockno)` to contents. -/
structure Bcache where
  buf : Nat → Buf
  bufmap : Nat → List Nat
  ticks : Nat
  disk : Nat → Nat → Data

/-- Lock and device events, in program order: `acquire` and `release` of a
bucket's list lock and eviction lock, a traversal of bucket `i`'s chain
(`walk`), the removal of slot `b` from chain `i` and its insertion at the head
of chain `i`, `acquiresleep` and `releasesleep` on a slot, and device
transfers. -/
inductive Ev where
  | acquire_list (i : Nat)
  | release_list (i : Nat)
  | acquire_evict (i : Nat)
  | release_evict (i : Nat)
  | walk (i : Nat)
  | unlink (b i : Nat)
  | splice (b i : Nat)
  | acquiresleep (b : Nat)
  | releasesleep (b : Nat)
  | disk_read (dev blockno : Nat)
  | disk_write (dev blockno : Nat) (d : Data)
deriving DecidableEq, Repr

/-- How a call ends: it returns, it takes the fatal `panic` path, or the
caller is suspended inside `acquiresleep` on slot `b`, whose sleeplock is
held. -/
inductive Res (α : Type) where
  | ok (a : α)
  | panic (msg : String)
  | sleeping (b : Nat)
deriving DecidableEq, Repr

/-- One call: outcome, resulting state, events. -/
structure Run (α : Type) where
  res : Res α
  st : Bcache
  tr : List Ev

def NBUFMAP_BUCKET : Nat := 13

/-- The macro `BUFMAP_HASH(dev, blockno)` on 32-bit unsigned operands. -/
def BUFMAP_HASH (dev blockno : Nat) : Nat :=
  (((dev <<< 27) ||| blockno) % 4294967296) % NBUFMAP_BUCKET

/-- Store `v` into slot `b` of the pool. -/
def setBuf (buf : Nat → Buf) (b : Nat) (v : Buf) : Nat → Buf :=
  fun x => if x = b then v else buf x

/-- Replace the chain of bucket `i`. -/
def setChain (bufmap : Nat → List Nat) (i : Nat) (l : List Nat) : Nat → List Nat :=
  fun x => if x = i then l else bufmap x

/-- The zero-initialised static storage of a slot. -/
def zeroBuf : Buf :=
  { valid := 0, dev := 0, blockno := 0, locked := false, pid := 0,
    refcnt := 0, lastuse := 0, data := [] }

/-- The state before `binit`: static storage, all zero. -/
def boot (ticks : Nat) (disk : Nat → Nat → Data) : Bcache :=
  { buf := fun _ => zeroBuf, bufmap := fun _ => [], ticks := ticks, disk := disk }

/-! ## binit -/

/-- The second loop of `binit`: slots `i, i+1, ...` are initialised and pushed
on the head of bucket 0, `n` of them. -/
def binitLoop : Nat → Nat → Bcache → Bcache
  | 0, _, s => s
  | n + 1, i, s =>
    binitLoop n (i + 1)
      { s with
        buf := setBuf s.buf i { s.buf i with locked := false, pid := 0, lastuse := 0, refcnt := 0 }
        bufmap := setChain s.bufmap 0 (i :: s.bufmap 0) }

/-- The function `binit` for a pool of `NBUF` slots: every bucket chain is emptied, then
every slot is chained into bucket 0. -/
def binit (NBUF : Nat) (s : Bcache) : Bcache :=
  binitLoop NBUF 0 { s with bufmap := fun _ => [] }

/-! ## bget -/

/-- The lookup loop `for(b = bufmap[key].next; b; b = b->next)`: the first slot
of the chain whose identity is `(dev, blockno)`. -/
def findBuf (buf : Nat → Buf) (dev blockno : Nat) : List Nat → Option Nat
  | [] => none
  | b :: rest =>
    if (buf b).dev = dev ∧ (buf b).blockno = blockno then some b
    else findBuf buf dev blockno rest

/-- The test `!before_least || b->next->lastuse < before_least->next->lastuse`. -/
def improves (buf : Nat → Buf) (b : Nat) : Option Nat → Bool
  | none => true
  | some l => decide ((buf b).lastuse < (buf l).lastuse)

/-- The inner loop of the victim scan over one chain.  The accumulator is the
candidate `before_least->next` and the flag `newfound`. -/
def scanChain (buf : Nat → Buf) : List Nat → Option Nat × Bool → Option Nat × Bool
  | [], acc => acc
  | b :: rest, acc =>
    if (buf b).refcnt = 0 ∧ improves buf b acc.1 = true then scanChain buf rest (some b, true)
    else scanChain buf rest acc

/-- The value `(uint)-1` of `holding_bucket` before any candidate is found. -/
def NO_BUCKET : Nat := 4294967295

/-- Loop state of the victim scan. -/
structure Scan where
  before_least : Option Nat
  holding_bucket : Nat
  tr : List Ev

/-- One iteration of the outer loop of the victim scan, for bucket `i`. -/
def scanStep (buf : Nat → Buf) (bufmap : Nat → List Nat) (acc : Scan) (i : Nat) : Scan :=
  let r := scanChain buf (bufmap i) (acc.before_least, false)
  if r.2 = false then
    { acc with tr := acc.tr ++ [Ev.acquire_list i, Ev.walk i, Ev.release_list i] }
  else
    { before_least := r.1
      holding_bucket := i
      tr := acc.tr ++ [Ev.acquire_list i, Ev.walk i] ++
        (if acc.holding_bucket ≠ NO_BUCKET then [Ev.release_list acc.holding_bucket] else []) }

/-- The outer loop of the victim scan over the given bucket indices. -/
def scanBuckets (buf : Nat → Buf) (bufmap : Nat → List Nat) : List Nat → Scan → Scan
  | [], acc => acc
  | i :: rest, acc => scanBuckets buf bufmap rest (scanStep buf bufmap acc i)

/-- Modelled from the spec: `acquiresleep` of `sleeplock.c`, which is absent
from the sources.  A free lock is taken by the caller; a held lock suspends
the caller. -/
def acquiresleep (s : Bcache) (pid b : Nat) (tr : List Ev) : Run Nat :=
  if (s.buf b).locked = true then
    { res := Res.sleeping b, st := s, tr := tr ++ [Ev.acquiresleep b] }
  else
    { res := Res.ok b
      st := { s with buf := setBuf s.buf b { s.buf b with locked := true, pid := pid } }
      tr := tr ++ [Ev.acquiresleep b] }

/-- Modelled from the spec: `holdingsleep` of `sleeplock.c`, which is absent
from the sources: the lock is held, and by the caller. -/
def holdingsleep (s : Bcache) (pid b : Nat) : Bool :=
  (s.buf b).locked && decide ((s.buf b).pid = pid)

/-- The function `bget`, called by process `pid`. -/
def bget (s : Bcache) (pid dev blockno : Nat) : Run Nat :=
  let key := BUFMAP_HASH dev blockno
  let t1 := [Ev.acquire_list key, Ev.walk key]
  match findBuf s.buf dev blockno (s.bufmap key) with
  | some b =>
    let s1 := { s with buf := setBuf s.buf b { s.buf b with refcnt := (s.buf b).refcnt + 1 } }
    acquiresleep s1 pid b (t1 ++ [Ev.release_list key])
  | none =>
    let t2 := t1 ++ [Ev.release_list key, Ev.acquire_evict key, Ev.walk key]
    match findBuf s.buf dev blockno (s.bufmap key) with
    | some b =>
      let s1 := { s with buf := setBuf s.buf b { s.buf b with refcnt := (s.buf b).refcnt + 1 } }
      acquiresleep s1 pid b
        (t2 ++ [Ev.acquire_list key, Ev.release_list key, Ev.release_evict key])
    | none =>
      let sc := scanBuckets s.buf s.bufmap (List.range NBUFMAP_BUCKET)
        { before_least := none, holding_bucket := NO_BUCKET, tr := t2 }
      match sc.before_least with
      | none => { res := Res.panic "bget: no buffers", st := s, tr := sc.tr }
      | some b =>
        let moved := decide (sc.holding_bucket ≠ key)
        let bufmap1 :=
          if moved then
            setChain (setChain s.bufmap sc.holding_bucket ((s.bufmap sc.holding_bucket).erase b))
              key (b :: s.bufmap key)
          else s.bufmap
        let t3 :=
          if moved then
            sc.tr ++ [Ev.unlink b sc.holding_bucket, Ev.release_list sc.holding_bucket,
              Ev.acquire_list key, Ev.splice b key]
          else sc.tr
        let s1 := { s with
          bufmap := bufmap1
          buf := setBuf s.buf b
            { s.buf b with dev := dev, blockno := blockno, refcnt := 1, valid := 0 } }
        acquiresleep s1 pid b (t3 ++ [Ev.release_list key, Ev.release_evict key])

/-! ## bread, bwrite, brelse, bpin, bunpin -/

/-- Modelled from the spec: `releasesleep` of `sleeplock.c`, which is absent
from the sources: the lock is freed. -/
def releasesleep (s : Bcache) (b : Nat) : Bcache :=
  { s with buf := setBuf s.buf b { s.buf b with locked := false, pid := 0 } }

/-- Modelled from the spec: `virtio_disk_rw(b, write)` of `virtio_disk.c`, which
is absent from the sources: a synchronous transfer between the contents of
slot `b` and the device block `(b->dev, b->blockno)`. -/
def virtio_disk_rw (s : Bcache) (b : Nat) (write : Bool) : Bcache :=
  if write = true then
    { s with disk := fun d n =>
        if d = (s.buf b).dev ∧ n = (s.buf b).blockno then (s.buf b).data else s.disk d n }
  else
    let b1 : Buf := { s.buf b with data := s.disk (s.buf b).dev (s.buf b).blockno }
    { s with buf := setBuf s.buf b b1 }

/-- The function `bread`: `bget`, then a device read when the slot is not valid. -/
def bread (s : Bcache) (pid dev blockno : Nat) : Run Nat :=
  let r := bget s pid dev blockno
  match r.res with
  | Res.ok b =>
    if (r.st.buf b).valid = 0 then
      let s1 := virtio_disk_rw r.st b false
      { res := Res.ok b
        st := { s1 with buf := setBuf s1.buf b { s1.buf b with valid := 1 } }
        tr := r.tr ++ [Ev.disk_read (r.st.buf b).dev (r.st.buf b).blockno] }
    else r
  | _ => r

/-- The function `bwrite`. -/
def bwrite (s : Bcache) (pid b : Nat) : Run Unit :=
  if holdingsleep s pid b = false then
    { res := Res.panic "bwrite", st := s, tr := [] }
  else
    { res := Res.ok ()
      st := virtio_disk_rw s b true
      tr := [Ev.disk_write (s.buf b).dev (s.buf b).blockno (s.buf b).data] }

/-- The function `brelse`. -/
def brelse (s : Bcache) (pid b : Nat) : Run Unit :=
  if holdingsleep s pid b = false then
    { res := Res.panic "brelse", st := s, tr := [] }
  else
    let s1 := releasesleep s b
    let key := BUFMAP_HASH (s1.buf b).dev (s1.buf b).blockno
    let b1 : Buf := { s1.buf b with refcnt := (s1.buf b).refcnt - 1 }
    let b2 : Buf := if b1.refcnt = 0 then { b1 with lastuse := s1.ticks } else b1
    { res := Res.ok ()
      st := { s1 with buf := setBuf s1.buf b b2 }
      tr := [Ev.releasesleep b, Ev.acquire_list key, Ev.release_list key] }

/-- The function `bpin`. -/
def bpin (s : Bcache) (b : Nat) : Run Unit :=
  let key := BUFMAP_HASH (s.buf b).dev (s.buf b).blockno
  { res := Res.ok ()
    st := { s with buf := setBuf s.buf b { s.buf b with refcnt := (s.buf b).refcnt + 1 } }
    tr := [Ev.acquire_list key, Ev.release_list key] }

/-- The function `bunpin`. -/
def bunpin (s : Bcache) (b : Nat) : Run Unit :=
  let key := BUFMAP_HASH (s.buf b).dev (s.buf b).blockno
  { res := Res.ok ()
    st := { s with buf := setBuf s.buf b { s.buf b with refcnt := (s.buf b).refcnt - 1 } }
    tr := [Ev.acquire_list key, Ev.release_list key] }

/-! ## Well-formed states and reachable states -/

/-- A slot somebody may still be using: referenced, holding valid contents, or
with its sleeplock taken. -/
def Buf.inUse (x : Buf) : Prop :=
  x.refcnt ≠ 0 ∨ x.valid ≠ 0 ∨ x.locked = true

instance (x : Buf) : Decidable x.inUse := by
  unfold Buf.inUse; infer_instance

/-- Well-formed directory over a pool of `NBUF` slots: a chain holds pool
slots only, each hashed to that chain; every pool slot is on the chain of its
hash; no chain repeats a slot; no reference count is negative. -/
def WF (NBUF : Nat) (s : Bcache) : Prop :=
  (∀ i < NBUFMAP_BUCKET, ∀ b ∈ s.bufmap i,
      b < NBUF ∧ BUFMAP_HASH (s.buf b).dev (s.buf b).blockno = i) ∧
  (∀ b < NBUF, b ∈ s.bufmap (BUFMAP_HASH (s.buf b).dev (s.buf b).blockno)) ∧
  (∀ i < NBUFMAP_BUCKET, (s.bufmap i).Nodup) ∧
  (∀ b < NBUF, 0 ≤ (s.buf b).refcnt)

instance (NBUF : Nat) (s : Bcache) : Decidable (WF NBUF s) := by
  unfold WF; infer_instance

/-- A slot in use is the one a lookup of its identity finds: it is the first
slot of its chain with that identity. -/
def FirstInUse (s : Bcache) : Prop :=
  ∀ i < NBUFMAP_BUCKET, ∀ b ∈ s.bufmap i, (s.buf b).inUse →
    findBuf s.buf (s.buf b).dev (s.buf b).blockno (s.bufmap i) = some b

instance (s : Bcache) : Decidable (FirstInUse s) := by
  unfold FirstInUse; infer_instance

/-- The inductive invariant of the cache. -/
def Inv (NBUF : Nat) (s : Bcache) : Prop :=
  WF NBUF s ∧ FirstInUse s

instance (NBUF : Nat) (s : Bcache) : Decidable (Inv NBUF s) := by
  unfold Inv; infer_instance

/-- States of a pool of `NBUF` slots reachable from `binit`: the state each
call leaves behind, with `brelse`, `bwrite`, `bpin` and `bunpin` applied to
pool slots whose reference count is positive; the timer moves `ticks`; the
holder of a slot's sleeplock may overwrite the slot's contents. -/
inductive Reachable (NBUF : Nat) : Bcache → Prop
  | init (ticks : Nat) (disk : Nat → Nat → Data) : Reachable NBUF (binit NBUF (boot ticks disk))
  | bget {s : Bcache} (h : Reachable NBUF s) (pid dev blockno : Nat) :
      Reachable NBUF (bget s pid dev blockno).st
  | bread {s : Bcache} (h : Reachable NBUF s) (pid dev blockno : Nat) :
      Reachable NBUF (bread s pid dev blockno).st
  | bwrite {s : Bcache} (h : Reachable NBUF s) (pid b : Nat) (hb : b < NBUF)
      (hr : 0 < (s.buf b).refcnt) : Reachable NBUF (bwrite s pid b).st
  | brelse {s : Bcache} (h : Reachable NBUF s) (pid b : Nat) (hb : b < NBUF)
      (hr : 0 < (s.buf b).refcnt) : Reachable NBUF (brelse s pid b).st
  | bpin {s : Bcache} (h : Reachable NBUF s) (b : Nat) (hb : b < NBUF)
      (hr : 0 < (s.buf b).refcnt) : Reachable NBUF (bpin s b).st
  | bunpin {s : Bcache} (h : Reachable NBUF s) (b : Nat) (hb : b < NBUF)
      (hr : 0 < (s.buf b).refcnt) : Reachable NBUF (bunpin s b).st
  | tick {s : Bcache} (h : Reachable NBUF s) (t : Nat) : Reachable NBUF { s with ticks := t }
  | store {s : Bcache} (h : Reachable NBUF s) (pid b : Nat) (d : Data) (hb : b < NBUF)
      (hh : holdingsleep s pid b = true) :
      Reachable NBUF { s with buf := setBuf s.buf b { s.buf b with data := d } }

/-- Calls on blocks other than `(dev, blockno)`: any number of `bget`, `bread`
and `brelse` calls, by any processes. -/
inductive OtherCalls (dev blockno : Nat) : Bcache → Bcache → Prop
  | refl (s : Bcache) : OtherCalls dev blockno s s
  | bget {s t : Bcache} (h : OtherCalls dev blockno s t) (pid dev1 blockno1 : Nat)
      (hne : ¬ (dev1 = dev ∧ blockno1 = blockno)) :
      OtherCalls dev blockno s (BufCache.bget t pid dev1 blockno1).st
  | bread {s t : Bcache} (h : OtherCalls dev blockno s t) (pid dev1 blockno1 : Nat)
      (hne : ¬ (dev1 = dev ∧ blockno1 = blockno)) :
      OtherCalls dev blockno s (BufCache.bread t pid dev1 blockno1).st
  | brelse {s t : Bcache} (h : OtherCalls dev blockno s t) (pid b : Nat)
      (hne : ¬ ((t.buf b).dev = dev ∧ (t.buf b).blockno = blockno)) :
      OtherCalls dev blockno s (BufCache.brelse t pid b).st

/-! ## Auxiliary notions for the victim scan -/

/-- Slot `v` is eligible and at least as old as every eligible slot among `P`. -/
def Oldest (buf : Nat → Buf) (P : Nat → Prop) (v : Nat) : Prop :=
  (buf v).refcnt = 0 ∧ ∀ b, P b → (buf b).refcnt = 0 → (buf v).lastuse ≤ (buf b).lastuse

/-- What the victim scan has established once the buckets `done` are scanned. -/
def ScanInv (buf : Nat → Buf) (bufmap : Nat → List Nat) (done : List Nat) (acc : Scan) : Prop :=
  (acc.before_least = none →
    acc.holding_bucket = NO_BUCKET ∧ ∀ i ∈ done, ∀ b ∈ bufmap i, (buf b).refcnt ≠ 0) ∧
  (∀ v, acc.before_least = some v →
    Oldest buf (fun b => ∃ i ∈ done, b ∈ bufmap i) v ∧
    acc.holding_bucket ∈ done ∧ v ∈ bufmap acc.holding_bucket)

/-- The state `bget` has built on a hit of slot `b`, before `acquiresleep`. -/
def bumped (s : Bcache) (b : Nat) : Bcache :=
  { s with buf := setBuf s.buf b { s.buf b with refcnt := (s.buf b).refcnt + 1 } }

/-- The state `bget` has built on a miss once the victim `v` of bucket `h` is
unlinked, spliced and stamped, before `acquiresleep`. -/
def retarget (s : Bcache) (v h dev blockno : Nat) : Bcache :=
  { s with
    bufmap :=
      if h ≠ BUFMAP_HASH dev blockno then
        setChain (setChain s.bufmap h ((s.bufmap h).erase v))
          (BUFMAP_HASH dev blockno) (v :: s.bufmap (BUFMAP_HASH dev blockno))
      else s.bufmap
    buf := setBuf s.buf v
      { s.buf v with dev := dev, blockno := blockno, refcnt := 1, valid := 0 } }

/-- The state `bread` builds from the state `s` that `bget` left when the
returned slot `b` is not valid: the block is read from the device. -/
def filled (s : Bcache) (b : Nat) : Bcache :=
  let s1 := virtio_disk_rw s b false
  { s1 with buf := setBuf s1.buf b { s1.buf b with valid := 1 } }

/-- Every valid cached copy of block `(dev, blockno)` on its chain, and the
device, hold contents `d`. -/
def Fresh (dev blockno : Nat) (d : Data) (s : Bcache) : Prop :=
  s.disk dev blockno = d ∧
  ∀ x ∈ s.bufmap (BUFMAP_HASH dev blockno),
    (s.buf x).dev = dev → (s.buf x).blockno = blockno → (s.buf x).valid ≠ 0 →
    (s.buf x).data = d

/-! ## Lock discipline over an event trace -/

/-- The list locks held after the events, starting with `held`. -/
def heldList : List Nat → List Ev → List Nat
  | held, [] => held
  | held, Ev.acquire_list i :: tr => heldList (i :: held) tr
  | held, Ev.release_list i :: tr => heldList (held.erase i) tr
  | held, _ :: tr => heldList held tr

/-- The eviction locks held after the events, starting with `held`. -/
def heldEvict : List Nat → List Ev → List Nat
  | held, [] => held
  | held, Ev.acquire_evict i :: tr => heldEvict (i :: held) tr
  | held, Ev.release_evict i :: tr => heldEvict (held.erase i) tr
  | held, _ :: tr => heldEvict held tr

/-- Ascending acquisition: whenever a list lock `i` is acquired, at most one
list lock is held and every held one has an index below `i`; a list lock is
released only while held. -/
def Ascending : List Nat → List Ev → Prop
  | _, [] => True
  | held, Ev.acquire_list i :: tr =>
    (∀ j ∈ held, j < i) ∧ held.length ≤ 1 ∧ Ascending (i :: held) tr
  | held, Ev.release_list i :: tr => i ∈ held ∧ Ascending (held.erase i) tr
  | held, _ :: tr => Ascending held tr

instance decAscending : (held : List Nat) → (tr : List Ev) → Decidable (Ascending held tr)
  | _, [] => isTrue trivial
  | held, Ev.acquire_list i :: tr =>
    haveI := decAscending (i :: held) tr
    (inferInstance :
      Decidable ((∀ j ∈ held, j < i) ∧ held.length ≤ 1 ∧ Ascending (i :: held) tr))
  | held, Ev.release_list i :: tr =>
    haveI := decAscending (held.erase i) tr
    (inferInstance : Decidable (i ∈ held ∧ Ascending (held.erase i) tr))
  | held, Ev.acquire_evict _ :: tr => decAscending held tr
  | held, Ev.release_evict _ :: tr => decAscending held tr
  | held, Ev.walk _ :: tr => decAscending held tr
  | held, Ev.unlink _ _ :: tr => decAscending held tr
  | held, Ev.splice _ _ :: tr => decAscending held tr
  | held, Ev.acquiresleep _ :: tr => decAscending held tr
  | held, Ev.releasesleep _ :: tr => decAscending held tr
  | held, Ev.disk_read _ _ :: tr => decAscending held tr
  | held, Ev.disk_write _ _ _ :: tr => decAscending held tr

/-- What the trace of the victim scan satisfies before it turns to bucket `a`:
acquisitions so far were ascending, the only list lock held is that of
`holding_bucket`, which lies below `a`, the eviction locks held are `E`, and
no slot has been unlinked. -/
def ScanTrace (E : List Nat) (a : Nat) (acc : Scan) : Prop :=
  Ascending [] acc.tr ∧
  heldList [] acc.tr = (if acc.holding_bucket = NO_BUCKET then [] else [acc.holding_bucket]) ∧
  (acc.holding_bucket ≠ NO_BUCKET → acc.holding_bucket < a) ∧
  heldEvict [] acc.tr = E ∧
  (∀ b h, Ev.unlink b h ∉ acc.tr)

/-! ## Concrete states used as test inputs -/

/-- A pool of three slots right after `binit`, empty disk. -/
def demo0 : Bcache := binit 3 (boot 0 (fun _ _ => []))

/-- Process 1 has checked out block `(0, 1)`: a miss that re-targets slot 2. -/
def demo1 : Bcache := (bget demo0 1 0 1).st

/-- The timer has advanced to 5 while process 1 holds slot 2. -/
def demo2 : Bcache := { demo1 with ticks := 5 }

/-- Process 1 has pinned slot 2 and released it: reference count 1, sleeplock
free, recency stamp never written; the timer has then advanced to 5. -/
def pinned : Bcache := { (brelse (bpin demo1 2).st 1 2).st with ticks := 5 }

/-- A pool of three slots in which process 1 has checked out block `(0, 1)` in
slot 2 and stored contents `[7]` into it. -/
def wt0 : Bcache :=
  { demo1 with buf := setBuf demo1.buf 2 { demo1.buf 2 with data := [7] } }

/-- Process 1 has written slot 2 to the device and released it. -/
def wt1 : Bcache := (brelse (bwrite wt0 1 2).st 1 2).st

/-- Process 1 has then checked out blocks `(0, 2)`, `(0, 3)` and `(0, 4)` and keeps them. -/
def wt2 : Bcache := (bget (bget (bget wt1 1 0 2).st 1 0 3).st 1 0 4).st

/-- Process 1 has instead read and released blocks `(0, 2)`, `(0, 3)` and `(0, 4)`. -/
def wt3 : Bcache :=
  (brelse (bread (brelse (bread (brelse (bread wt1 1 0 2).st 1 1).st 1 0 3).st 1 0).st
    1 0 4).st 1 2).st

/-! ## Basic facts -/

@[simp]
theorem setBuf_same (buf : Nat → Buf) (b : Nat) (v : Buf) : setBuf buf b v b = v := by
  simp [setBuf]

theorem setBuf_other (buf : Nat → Buf) (b : Nat) (v : Buf) (x : Nat) (h : x ≠ b) :
    setBuf buf b v x = buf x := by
  simp [setBuf, h]

@[simp]
theorem setChain_same (m : Nat → List Nat) (i : Nat) (l : List Nat) :
    setChain m i l i = l := by
  simp [setChain]

theorem setChain_other (m : Nat → List Nat) (i : Nat) (l : List Nat) (x : Nat) (h : x ≠ i) :
    setChain m i l x = m x := by
  simp [setChain, h]

theorem BUFMAP_HASH_lt (dev blockno : Nat) : BUFMAP_HASH dev blockno < NBUFMAP_BUCKET := by
  unfold BUFMAP_HASH NBUFMAP_BUCKET
  exact Nat.mod_lt _ (by decide)

/-! ## The lookup loop -/

theorem findBuf_some {buf : Nat → Buf} {dev blockno : Nat} {l : List Nat} {b : Nat}
    (h : findBuf buf dev blockno l = some b) :
    b ∈ l ∧ (buf b).dev = dev ∧ (buf b).blockno = blockno := by
  induction l with
  | nil => simp [findBuf] at h
  | cons a rest ih =>
    unfold findBuf at h
    split at h
    · rename_i hm
      have : a = b := by simpa using h
      subst this
      exact ⟨List.mem_cons_self _ _, hm.1, hm.2⟩
    · have := ih h
      exact ⟨List.mem_cons_of_mem _ this.1, this.2⟩

theorem findBuf_none {buf : Nat → Buf} {dev blockno : Nat} {l : List Nat} :
    findBuf buf dev blockno l = none ↔
      ∀ b ∈ l, ¬ ((buf b).dev = dev ∧ (buf b).blockno = blockno) := by
  induction l with
  | nil => simp [findBuf]
  | cons a rest ih =>
    unfold findBuf
    split
    · rename_i hm
      constructor
      · intro h; cases h
      · intro h; exact absurd hm (h a (List.mem_cons_self _ _))
    · rename_i hm
      simp only [List.mem_cons, forall_eq_or_imp]
      rw [ih]
      exact ⟨fun h => ⟨hm, h⟩, fun h => h.2⟩

/-- A lookup keeps its answer when the answer still matches and no other slot
of the chain starts to match. -/
theorem findBuf_stable {buf buf1 : Nat → Buf} {dev blockno : Nat} {l : List Nat} {b : Nat}
    (h : findBuf buf dev blockno l = some b)
    (hb : (buf1 b).dev = dev ∧ (buf1 b).blockno = blockno)
    (ho : ∀ x ∈ l, x ≠ b → ((buf1 x).dev = dev ∧ (buf1 x).blockno = blockno) →
      ((buf x).dev = dev ∧ (buf x).blockno = blockno)) :
    findBuf buf1 dev blockno l = some b := by
  induction l with
  | nil => simp [findBuf] at h
  | cons a rest ih =>
    unfold findBuf at h ⊢
    by_cases hab : a = b
    · subst hab
      simp [hb]
    · split at h
      · rename_i hm
        exact absurd (by simpa using h) hab
      · rename_i hm
        have hn : ¬ ((buf1 a).dev = dev ∧ (buf1 a).blockno = blockno) :=
          fun h1 => hm (ho a (List.mem_cons_self _ _) hab h1)
        rw [if_neg hn]
        exact ih h (fun x hx => ho x (List.mem_cons_of_mem _ hx))

/-- Unlinking another slot does not change the answer of a lookup. -/
theorem findBuf_erase {buf : Nat → Buf} {dev blockno : Nat} {l : List Nat} {b v : Nat}
    (h : findBuf buf dev blockno l = some b) (hv : v ≠ b) :
    findBuf buf dev blockno (l.erase v) = some b := by
  induction l with
  | nil => simp [findBuf] at h
  | cons a rest ih =>
    unfold findBuf at h
    by_cases hav : a = v
    · subst hav
      rw [List.erase_cons_head]
      split at h
      · exact absurd (by simpa using h) hv
      · exact h
    · rw [List.erase_cons_tail (by simpa using hav)]
      unfold findBuf
      split at h
      · rename_i hm
        rw [if_pos hm]; exact h
      · rename_i hm
        rw [if_neg hm]; exact ih h

/-- A slot of the chain that matches, while no other slot of the chain does, is found. -/
theorem findBuf_unique {buf : Nat → Buf} {dev blockno : Nat} {l : List Nat} {b : Nat}
    (hb : b ∈ l) (hm : (buf b).dev = dev ∧ (buf b).blockno = blockno)
    (ho : ∀ x ∈ l, x ≠ b → ¬ ((buf x).dev = dev ∧ (buf x).blockno = blockno)) :
    findBuf buf dev blockno l = some b := by
  induction l with
  | nil => simp at hb
  | cons a rest ih =>
    unfold findBuf
    by_cases hab : a = b
    · subst hab; simp [hm]
    · rw [if_neg (ho a (List.mem_cons_self _ _) hab)]
      have : b ∈ rest := by
        rcases List.mem_cons.mp hb with h | h
        · exact absurd h.symm hab
        · exact h
      exact ih this (fun x hx => ho x (List.mem_cons_of_mem _ hx))

/-! ## The victim scan -/

theorem scanChain_spec (buf : Nat → Buf) (l : List Nat) :
    ∀ (acc : Option Nat × Bool) (P Q : Nat → Prop),
    (acc.1 = none → ∀ b, P b → (buf b).refcnt ≠ 0) →
    (∀ a, acc.1 = some a → Oldest buf P a) →
    (acc.2 = true → ∃ v, Q v ∧ acc.1 = some v) →
    ((scanChain buf l acc).1 = none → ∀ b, (P b ∨ b ∈ l) → (buf b).refcnt ≠ 0) ∧
    (∀ v, (scanChain buf l acc).1 = some v → Oldest buf (fun b => P b ∨ b ∈ l) v) ∧
    ((scanChain buf l acc).2 = false → acc.2 = false ∧ (scanChain buf l acc).1 = acc.1) ∧
    ((scanChain buf l acc).2 = true → ∃ v, (Q v ∨ v ∈ l) ∧ (scanChain buf l acc).1 = some v) := by
  induction l with
  | nil =>
    intro acc P Q h0 h1 h2
    refine ⟨fun hn x hx => ?_, fun v hv => ?_, fun h => ⟨h, rfl⟩, fun ht => ?_⟩
    · rcases hx with hx | hx
      · exact h0 hn x hx
      · cases hx
    · refine ⟨(h1 v hv).1, fun x hx hr => (h1 v hv).2 x ?_ hr⟩
      rcases hx with hx | hx
      · exact hx
      · cases hx
    · obtain ⟨v, hv, e⟩ := h2 ht
      exact ⟨v, Or.inl hv, e⟩
  | cons b rest ih =>
    intro acc P Q h0 h1 h2
    unfold scanChain
    split
    · rename_i hc
      have hold : Oldest buf (fun x => P x ∨ x = b) b := by
        refine ⟨hc.1, ?_⟩
        rintro x (hx | hx) hr
        · cases ha : acc.1 with
          | none => exact absurd hr (h0 ha x hx)
          | some a =>
            have hlt : (buf b).lastuse < (buf a).lastuse := by
              have := hc.2
              rw [ha] at this
              simpa [improves] using this
            exact le_trans (le_of_lt hlt) ((h1 a ha).2 x hx hr)
        · subst hx; exact le_refl _
      have := ih (some b, true) (fun x => P x ∨ x = b) (fun x => Q x ∨ x = b)
        (by intro h; cases h) (by intro a ha; cases ha; exact hold)
        (by intro _; exact ⟨b, Or.inr rfl, rfl⟩)
      obtain ⟨r1, r2, r3, r4⟩ := this
      refine ⟨?_, ?_, ?_, ?_⟩
      · intro hn x hx
        apply r1 hn x
        rcases hx with hx | hx
        · exact Or.inl (Or.inl hx)
        · rcases List.mem_cons.mp hx with hx | hx
          · exact Or.inl (Or.inr hx)
          · exact Or.inr hx
      · intro v hv
        have := r2 v hv
        refine ⟨this.1, fun x hx hr => this.2 x ?_ hr⟩
        rcases hx with hx | hx
        · exact Or.inl (Or.inl hx)
        · rcases List.mem_cons.mp hx with hx | hx
          · exact Or.inl (Or.inr hx)
          · exact Or.inr hx
      · intro hf
        exact absurd (r3 hf).1 (by simp)
      · intro ht
        obtain ⟨v, hv, e⟩ := r4 ht
        refine ⟨v, ?_, e⟩
        rcases hv with (hv | hv) | hv
        · exact Or.inl hv
        · exact Or.inr (List.mem_cons.mpr (Or.inl hv))
        · exact Or.inr (List.mem_cons.mpr (Or.inr hv))
    · rename_i hc
      have h0' : acc.1 = none → ∀ x, (P x ∨ x = b) → (buf x).refcnt ≠ 0 := by
        rintro ha x (hx | hx)
        · exact h0 ha x hx
        · subst hx
          intro hr
          have hi : improves buf x acc.1 = true := by simp [improves, ha]
          exact hc ⟨hr, hi⟩
      have h1' : ∀ a, acc.1 = some a → Oldest buf (fun x => P x ∨ x = b) a := by
        intro a ha
        refine ⟨(h1 a ha).1, ?_⟩
        rintro x (hx | hx) hr
        · exact (h1 a ha).2 x hx hr
        · subst hx
          by_contra hlt
          have hi : improves buf x acc.1 = true := by
            simp only [improves, ha, decide_eq_true_eq]
            omega
          exact hc ⟨hr, hi⟩
      obtain ⟨r1, r2, r3, r4⟩ := ih acc (fun x => P x ∨ x = b) Q h0' h1' h2
      refine ⟨?_, ?_, r3, ?_⟩
      · intro hn x hx
        apply r1 hn x
        rcases hx with hx | hx
        · exact Or.inl (Or.inl hx)
        · rcases List.mem_cons.mp hx with hx | hx
          · exact Or.inl (Or.inr hx)
          · exact Or.inr hx
      · intro v hv
        have := r2 v hv
        refine ⟨this.1, fun x hx hr => this.2 x ?_ hr⟩
        rcases hx with hx | hx
        · exact Or.inl (Or.inl hx)
        · rcases List.mem_cons.mp hx with hx | hx
          · exact Or.inl (Or.inr hx)
          · exact Or.inr hx
      · intro ht
        obtain ⟨v, hv, e⟩ := r4 ht
        refine ⟨v, ?_, e⟩
        rcases hv with hv | hv
        · exact Or.inl hv
        · exact Or.inr (List.mem_cons.mpr (Or.inr hv))

theorem scanStep_of_false {buf : Nat → Buf} {bufmap : Nat → List Nat} {acc : Scan} {i : Nat}
    (h : (scanChain buf (bufmap i) (acc.before_least, false)).2 = false) :
    scanStep buf bufmap acc i =
      { acc with tr := acc.tr ++ [Ev.acquire_list i, Ev.walk i, Ev.release_list i] } := by
  unfold scanStep
  simp only [h, if_true]

theorem scanStep_of_true {buf : Nat → Buf} {bufmap : Nat → List Nat} {acc : Scan} {i : Nat}
    (h : (scanChain buf (bufmap i) (acc.before_least, false)).2 = true) :
    scanStep buf bufmap acc i =
      { before_least := (scanChain buf (bufmap i) (acc.before_least, false)).1
        holding_bucket := i
        tr := acc.tr ++ [Ev.acquire_list i, Ev.walk i] ++
          (if acc.holding_bucket ≠ NO_BUCKET then [Ev.release_list acc.holding_bucket] else []) } := by
  unfold scanStep
  simp only [h, Bool.true_eq_false, if_false]

theorem scanStep_inv {buf : Nat → Buf} {bufmap : Nat → List Nat} {done : List Nat} {acc : Scan}
    (i : Nat) (h : ScanInv buf bufmap done acc) :
    ScanInv buf bufmap (done ++ [i]) (scanStep buf bufmap acc i) := by
  obtain ⟨r1, r2, r3, r4⟩ := scanChain_spec buf (bufmap i) (acc.before_least, false)
    (fun b => ∃ j ∈ done, b ∈ bufmap j) (fun _ => False)
    (fun hn b hb => by obtain ⟨j, hj, hbj⟩ := hb; exact (h.1 hn).2 j hj b hbj)
    (fun a ha => (h.2 a ha).1) (by intro hf; cases hf)
  have hmem : ∀ b, (∃ j ∈ done ++ [i], b ∈ bufmap j) →
      ((∃ j ∈ done, b ∈ bufmap j) ∨ b ∈ bufmap i) := by
    rintro b ⟨j, hj, hb⟩
    rcases List.mem_append.mp hj with hj | hj
    · exact Or.inl ⟨j, hj, hb⟩
    · have : j = i := by simpa using hj
      subst this; exact Or.inr hb
  cases hflag : (scanChain buf (bufmap i) (acc.before_least, false)).2 with
  | false =>
    have he := (r3 hflag).2
    rw [scanStep_of_false hflag]
    constructor
    · intro hn
      have hn' : (scanChain buf (bufmap i) (acc.before_least, false)).1 = none := by
        rw [he]; exact hn
      refine ⟨(h.1 hn).1, fun j hj b hb => r1 hn' b (hmem b ⟨j, hj, hb⟩)⟩
    · intro v hv
      have hv' : (scanChain buf (bufmap i) (acc.before_least, false)).1 = some v := by
        rw [he]; exact hv
      have ho := r2 v hv'
      refine ⟨⟨ho.1, fun b hb hr => ho.2 b (hmem b hb) hr⟩, ?_, (h.2 v hv).2.2⟩
      exact List.mem_append.mpr (Or.inl (h.2 v hv).2.1)
  | true =>
    obtain ⟨w, hw, hwe⟩ := r4 hflag
    have hwi : w ∈ bufmap i := by
      rcases hw with hw | hw
      · exact absurd hw id
      · exact hw
    rw [scanStep_of_true hflag]
    constructor
    · intro hn
      have hn' : (scanChain buf (bufmap i) (acc.before_least, false)).1 = none := hn
      rw [hwe] at hn'; cases hn'
    · intro v hv
      have hv' : (scanChain buf (bufmap i) (acc.before_least, false)).1 = some v := hv
      have ho := r2 v hv'
      refine ⟨⟨ho.1, fun b hb hr => ho.2 b (hmem b hb) hr⟩, by simp, ?_⟩
      rw [hwe] at hv'
      cases hv'
      exact hwi

theorem scanBuckets_inv {buf : Nat → Buf} {bufmap : Nat → List Nat} (rest : List Nat) :
    ∀ (done : List Nat) (acc : Scan), ScanInv buf bufmap done acc →
      ScanInv buf bufmap (done ++ rest) (scanBuckets buf bufmap rest acc) := by
  induction rest with
  | nil => intro done acc h; simpa [scanBuckets] using h
  | cons i rest ih =>
    intro done acc h
    have := ih (done ++ [i]) _ (scanStep_inv i h)
    simpa [scanBuckets] using this

/-- What the victim scan of `bget` returns. -/
theorem scan_result (buf : Nat → Buf) (bufmap : Nat → List Nat) (t : List Ev) :
    ((scanBuckets buf bufmap (List.range NBUFMAP_BUCKET)
        { before_least := none, holding_bucket := NO_BUCKET, tr := t }).before_least = none →
      ∀ i < NBUFMAP_BUCKET, ∀ b ∈ bufmap i, (buf b).refcnt ≠ 0) ∧
    (∀ v, (scanBuckets buf bufmap (List.range NBUFMAP_BUCKET)
        { before_least := none, holding_bucket := NO_BUCKET, tr := t }).before_least = some v →
      Oldest buf (fun b => ∃ i < NBUFMAP_BUCKET, b ∈ bufmap i) v ∧
      (scanBuckets buf bufmap (List.range NBUFMAP_BUCKET)
        { before_least := none, holding_bucket := NO_BUCKET, tr := t }).holding_bucket
          < NBUFMAP_BUCKET ∧
      v ∈ bufmap (scanBuckets buf bufmap (List.range NBUFMAP_BUCKET)
        { before_least := none, holding_bucket := NO_BUCKET, tr := t }).holding_bucket) := by
  have h0 : ScanInv buf bufmap []
      { before_least := none, holding_bucket := NO_BUCKET, tr := t } := by
    constructor
    · intro _; exact ⟨rfl, fun i hi => by cases hi⟩
    · intro v hv; cases hv
  have h := scanBuckets_inv (List.range NBUFMAP_BUCKET) [] _ h0
  rw [List.nil_append] at h
  constructor
  · intro hn i hi b hb
    exact (h.1 hn).2 i (List.mem_range.mpr hi) b hb
  · intro v hv
    obtain ⟨ho, hh, hm⟩ := h.2 v hv
    refine ⟨⟨ho.1, fun b hb hr => ho.2 b ?_ hr⟩, List.mem_range.mp hh, hm⟩
    obtain ⟨i, hi, hbi⟩ := hb
    exact ⟨i, List.mem_range.mpr hi, hbi⟩

/-- The three ways `bget` can go: a hit, the fatal path, or a miss that
re-targets the oldest eligible slot of the whole directory. -/
theorem bget_cases (s : Bcache) (pid dev blockno : Nat) :
    (∃ b, findBuf s.buf dev blockno (s.bufmap (BUFMAP_HASH dev blockno)) = some b ∧
      ∃ t, bget s pid dev blockno = acquiresleep (bumped s b) pid b t) ∨
    (findBuf s.buf dev blockno (s.bufmap (BUFMAP_HASH dev blockno)) = none ∧
      (∀ i < NBUFMAP_BUCKET, ∀ b ∈ s.bufmap i, (s.buf b).refcnt ≠ 0) ∧
      ∃ t, bget s pid dev blockno = { res := Res.panic "bget: no buffers", st := s, tr := t }) ∨
    (findBuf s.buf dev blockno (s.bufmap (BUFMAP_HASH dev blockno)) = none ∧
      ∃ v h, h < NBUFMAP_BUCKET ∧ v ∈ s.bufmap h ∧
        Oldest s.buf (fun b => ∃ i < NBUFMAP_BUCKET, b ∈ s.bufmap i) v ∧
        ∃ t, bget s pid dev blockno = acquiresleep (retarget s v h dev blockno) pid v t) := by
  cases hf : findBuf s.buf dev blockno (s.bufmap (BUFMAP_HASH dev blockno)) with
  | some b =>
    left
    refine ⟨b, rfl, ?_⟩
    unfold bget
    simp only [hf]
    exact ⟨_, rfl⟩
  | none =>
    right
    have hs := scan_result s.buf s.bufmap
      ([Ev.acquire_list (BUFMAP_HASH dev blockno), Ev.walk (BUFMAP_HASH dev blockno)] ++
        [Ev.release_list (BUFMAP_HASH dev blockno), Ev.acquire_evict (BUFMAP_HASH dev blockno),
          Ev.walk (BUFMAP_HASH dev blockno)])
    cases hb : (scanBuckets s.buf s.bufmap (List.range NBUFMAP_BUCKET)
        { before_least := none, holding_bucket := NO_BUCKET,
          tr := [Ev.acquire_list (BUFMAP_HASH dev blockno), Ev.walk (BUFMAP_HASH dev blockno)] ++
            [Ev.release_list (BUFMAP_HASH dev blockno), Ev.acquire_evict (BUFMAP_HASH dev blockno),
              Ev.walk (BUFMAP_HASH dev blockno)] }).before_least with
    | none =>
      left
      refine ⟨rfl, hs.1 hb, ?_⟩
      unfold bget
      simp only [hf, hb]
      exact ⟨_, rfl⟩
    | some v =>
      right
      obtain ⟨ho, hlt, hm⟩ := hs.2 v hb
      refine ⟨rfl, v, _, hlt, hm, ho, ?_⟩
      unfold bget
      simp only [hf, hb]
      unfold retarget
      simp only [decide_eq_true_eq, ne_eq]
      exact ⟨_, rfl⟩

/-! ## acquiresleep -/

theorem acquiresleep_free {s : Bcache} {b : Nat} (pid : Nat) (t : List Ev)
    (h : (s.buf b).locked = false) :
    acquiresleep s pid b t =
      { res := Res.ok b
        st := { s with buf := setBuf s.buf b { s.buf b with locked := true, pid := pid } }
        tr := t ++ [Ev.acquiresleep b] } := by
  unfold acquiresleep
  simp [h]

theorem acquiresleep_held {s : Bcache} {b : Nat} (pid : Nat) (t : List Ev)
    (h : (s.buf b).locked = true) :
    acquiresleep s pid b t = { res := Res.sleeping b, st := s, tr := t ++ [Ev.acquiresleep b] } := by
  unfold acquiresleep
  simp [h]

theorem acquiresleep_ok {s : Bcache} {pid b x : Nat} {t : List Ev}
    (h : (acquiresleep s pid b t).res = Res.ok x) :
    x = b ∧ (s.buf b).locked = false := by
  cases hl : (s.buf b).locked with
  | false =>
    rw [acquiresleep_free pid t hl] at h
    have : b = x := by simpa using h
    exact ⟨this.symm, rfl⟩
  | true =>
    rw [acquiresleep_held pid t hl] at h
    cases h

theorem acquiresleep_not_panic (s : Bcache) (pid b : Nat) (t : List Ev) (msg : String) :
    (acquiresleep s pid b t).res ≠ Res.panic msg := by
  cases hl : (s.buf b).locked with
  | false => rw [acquiresleep_free pid t hl]; simp
  | true => rw [acquiresleep_held pid t hl]; simp

theorem acquiresleep_handout {s : Bcache} {pid b x : Nat} {t : List Ev}
    (h : (acquiresleep s pid b t).res = Res.ok x ∨ (acquiresleep s pid b t).res = Res.sleeping x) :
    x = b := by
  cases hl : (s.buf b).locked with
  | false =>
    rw [acquiresleep_free pid t hl] at h
    rcases h with h | h
    · exact (by simpa using h : b = x).symm
    · cases h
  | true =>
    rw [acquiresleep_held pid t hl] at h
    rcases h with h | h
    · cases h
    · exact (by simpa using h : b = x).symm

@[simp]
theorem acquiresleep_bufmap (s : Bcache) (pid b : Nat) (t : List Ev) :
    (acquiresleep s pid b t).st.bufmap = s.bufmap := by
  unfold acquiresleep; split <;> rfl

@[simp]
theorem acquiresleep_disk (s : Bcache) (pid b : Nat) (t : List Ev) :
    (acquiresleep s pid b t).st.disk = s.disk := by
  unfold acquiresleep; split <;> rfl

/-- The sleeplock is the only part of a slot that `acquiresleep` writes. -/
theorem acquiresleep_buf (s : Bcache) (pid b : Nat) (t : List Ev) (x : Nat) :
    ((acquiresleep s pid b t).st.buf x).dev = (s.buf x).dev ∧
    ((acquiresleep s pid b t).st.buf x).blockno = (s.buf x).blockno ∧
    ((acquiresleep s pid b t).st.buf x).refcnt = (s.buf x).refcnt ∧
    ((acquiresleep s pid b t).st.buf x).valid = (s.buf x).valid ∧
    ((acquiresleep s pid b t).st.buf x).lastuse = (s.buf x).lastuse ∧
    ((acquiresleep s pid b t).st.buf x).data = (s.buf x).data ∧
    (x ≠ b → (acquiresleep s pid b t).st.buf x = s.buf x) := by
  unfold acquiresleep
  split
  · simp
  · by_cases hx : x = b
    · subst hx; simp
    · simp [setBuf, hx]

theorem retarget_buf_other (s : Bcache) (v h dev blockno x : Nat) (hx : x ≠ v) :
    (retarget s v h dev blockno).buf x = s.buf x := by
  simp [retarget, setBuf, hx]

theorem retarget_buf_self (s : Bcache) (v h dev blockno : Nat) :
    (retarget s v h dev blockno).buf v =
      { s.buf v with dev := dev, blockno := blockno, refcnt := 1, valid := 0 } := by
  simp [retarget]

theorem bumped_buf_other (s : Bcache) (b x : Nat) (hx : x ≠ b) : (bumped s b).buf x = s.buf x := by
  simp [bumped, setBuf, hx]

theorem bumped_buf_self (s : Bcache) (b : Nat) :
    (bumped s b).buf b = { s.buf b with refcnt := (s.buf b).refcnt + 1 } := by
  simp [bumped]

/-! ## Victim selection, postcondition, exhaustion -/

/-- C1: on a miss that does not panic, the slot `bget` hands out is the only
slot it changed; before the call its reference count was 0 and its recency
stamp was at most that of every pool slot with reference count 0; no slot
with a positive reference count is touched. -/
theorem victim_selection (NBUF : Nat) (s : Bcache) (pid dev blockno b : Nat)
    (hwf : WF NBUF s)
    (hmiss : ∀ x ∈ s.bufmap (BUFMAP_HASH dev blockno),
      ¬ ((s.buf x).dev = dev ∧ (s.buf x).blockno = blockno))
    (hret : (bget s pid dev blockno).res = Res.ok b ∨
      (bget s pid dev blockno).res = Res.sleeping b) :
    b < NBUF ∧ (s.buf b).refcnt = 0 ∧
    (∀ j < NBUF, (s.buf j).refcnt = 0 → (s.buf b).lastuse ≤ (s.buf j).lastuse) ∧
    ((bget s pid dev blockno).st.buf b).dev = dev ∧
    ((bget s pid dev blockno).st.buf b).blockno = blockno ∧
    (∀ j, j ≠ b → (bget s pid dev blockno).st.buf j = s.buf j) ∧
    (∀ j < NBUF, 0 < (s.buf j).refcnt → j ≠ b) := by
  have hnone := findBuf_none.mpr hmiss
  rcases bget_cases s pid dev blockno with ⟨x, hx, _⟩ | ⟨_, _, t, ht⟩ | ⟨_, v, h, hh, hv, ho, t, ht⟩
  · rw [hnone] at hx; cases hx
  · rw [ht] at hret
    rcases hret with hret | hret <;> cases hret
  · rw [ht] at hret ⊢
    have hb : b = v := acquiresleep_handout hret
    subst hb
    have hlt : b < NBUF := (hwf.1 h hh b hv).1
    have hf := acquiresleep_buf (retarget s b h dev blockno) pid b t
    refine ⟨hlt, ho.1, ?_, ?_, ?_, ?_, ?_⟩
    · intro j hj hr
      exact ho.2 j ⟨_, BUFMAP_HASH_lt _ _, hwf.2.1 j hj⟩ hr
    · rw [(hf b).1, retarget_buf_self]
    · rw [(hf b).2.1, retarget_buf_self]
    · intro j hj
      rw [(hf j).2.2.2.2.2.2 hj, retarget_buf_other _ _ _ _ _ _ hj]
    · intro j _ hr hjb
      rw [hjb, ho.1] at hr
      exact absurd hr (lt_irrefl _)

/-- C1 at a concrete input: block `(0, 1)` on the fresh pool `demo0`. -/
theorem victim_selection_witness :
    2 < 3 ∧ (demo0.buf 2).refcnt = 0 ∧
    (∀ j < 3, (demo0.buf j).refcnt = 0 → (demo0.buf 2).lastuse ≤ (demo0.buf j).lastuse) ∧
    ((bget demo0 1 0 1).st.buf 2).dev = 0 ∧
    ((bget demo0 1 0 1).st.buf 2).blockno = 1 ∧
    (∀ j, j ≠ 2 → (bget demo0 1 0 1).st.buf j = demo0.buf j) ∧
    (∀ j < 3, 0 < (demo0.buf j).refcnt → j ≠ 2) :=
  victim_selection 3 demo0 1 0 1 2 (by decide) (by decide) (Or.inl (by decide))

/-- C2: when `bget` returns slot `b`, the slot carries the requested identity
and the caller holds its sleeplock.  On a hit `b` is the slot the lookup of
the target chain finds, its reference count went up by one and its valid flag
and contents are as before.  On a miss its reference count is 1 and its valid
flag is 0. -/
theorem bget_postcondition (s : Bcache) (pid dev blockno b : Nat)
    (hret : (bget s pid dev blockno).res = Res.ok b) :
    ((bget s pid dev blockno).st.buf b).dev = dev ∧
    ((bget s pid dev blockno).st.buf b).blockno = blockno ∧
    holdingsleep (bget s pid dev blockno).st pid b = true ∧
    ((∃ x ∈ s.bufmap (BUFMAP_HASH dev blockno),
        (s.buf x).dev = dev ∧ (s.buf x).blockno = blockno) →
      findBuf s.buf dev blockno (s.bufmap (BUFMAP_HASH dev blockno)) = some b ∧
      b ∈ s.bufmap (BUFMAP_HASH dev blockno) ∧
      (s.buf b).dev = dev ∧ (s.buf b).blockno = blockno ∧
      ((bget s pid dev blockno).st.buf b).refcnt = (s.buf b).refcnt + 1 ∧
      ((bget s pid dev blockno).st.buf b).valid = (s.buf b).valid ∧
      ((bget s pid dev blockno).st.buf b).data = (s.buf b).data) ∧
    ((∀ x ∈ s.bufmap (BUFMAP_HASH dev blockno),
        ¬ ((s.buf x).dev = dev ∧ (s.buf x).blockno = blockno)) →
      ((bget s pid dev blockno).st.buf b).refcnt = 1 ∧
      ((bget s pid dev blockno).st.buf b).valid = 0) := by
  rcases bget_cases s pid dev blockno with ⟨x, hx, t, ht⟩ | ⟨_, _, t, ht⟩ | ⟨hn, v, h, hh, hv, ho, t, ht⟩
  · rw [ht] at hret ⊢
    obtain ⟨hb, hl⟩ := acquiresleep_ok hret
    subst hb
    have hf := acquiresleep_buf (bumped s b) pid b t b
    obtain ⟨hmem, hd, hn⟩ := findBuf_some hx
    have hlock : holdingsleep (acquiresleep (bumped s b) pid b t).st pid b = true := by
      rw [acquiresleep_free pid t hl]
      simp [holdingsleep]
    refine ⟨?_, ?_, hlock, ?_, ?_⟩
    · rw [hf.1, bumped_buf_self]; exact hd
    · rw [hf.2.1, bumped_buf_self]; exact hn
    · intro _
      refine ⟨hx, hmem, hd, hn, ?_, ?_, ?_⟩
      · rw [hf.2.2.1, bumped_buf_self]
      · rw [hf.2.2.2.1, bumped_buf_self]
      · rw [hf.2.2.2.2.2.1, bumped_buf_self]
    · intro hmiss
      exact absurd ⟨hd, hn⟩ (hmiss b hmem)
  · rw [ht] at hret; cases hret
  · rw [ht] at hret ⊢
    obtain ⟨hb, hl⟩ := acquiresleep_ok hret
    subst hb
    have hf := acquiresleep_buf (retarget s b h dev blockno) pid b t b
    have hlock : holdingsleep (acquiresleep (retarget s b h dev blockno) pid b t).st pid b
        = true := by
      rw [acquiresleep_free pid t hl]
      simp [holdingsleep]
    refine ⟨?_, ?_, hlock, ?_, ?_⟩
    · rw [hf.1, retarget_buf_self]
    · rw [hf.2.1, retarget_buf_self]
    · rintro ⟨x, hx, hm⟩
      exact absurd hm (findBuf_none.mp hn x hx)
    · intro _
      constructor
      · rw [hf.2.2.1, retarget_buf_self]
      · rw [hf.2.2.2.1, retarget_buf_self]

/-- C2 at a concrete input: the miss for block `(0, 1)` on `demo0`. -/
theorem bget_postcondition_witness :
    (bget demo0 1 0 1).res = Res.ok 2 ∧
    ((bget demo0 1 0 1).st.buf 2).dev = 0 ∧
    ((bget demo0 1 0 1).st.buf 2).blockno = 1 ∧
    holdingsleep (bget demo0 1 0 1).st 1 2 = true ∧
    ((bget demo0 1 0 1).st.buf 2).refcnt = 1 ∧
    ((bget demo0 1 0 1).st.buf 2).valid = 0 := by
  have h := bget_postcondition demo0 1 0 1 2 (by decide)
  exact ⟨by decide, h.1, h.2.1, h.2.2.1, h.2.2.2.2 (by decide)⟩

/-- C6, the claim at a concrete input: in `demo1` block `(0, 1)` is cached in
slot 2, whose sleeplock process 1 holds, and two slots have reference count 0.
A further `bget` for that block by process 1 neither panics nor returns: the
caller sleeps in `acquiresleep` on slot 2, a lock only the caller itself
could release. -/
theorem bget_cached_but_locked_sleeps :
    WF 3 demo1 ∧
    (∃ x ∈ demo1.bufmap (BUFMAP_HASH 0 1), (demo1.buf x).dev = 0 ∧ (demo1.buf x).blockno = 1) ∧
    (∃ j < 3, (demo1.buf j).refcnt = 0) ∧
    (bget demo1 1 0 1).res = Res.sleeping 2 := by
  decide

/-- C6 as amended: `bget` takes the fatal path, and then with the message
`bget: no buffers`, exactly when the target chain has no slot of the requested
identity and every pool slot has a positive reference count.  Whenever the
block is cached or some pool slot has reference count 0, `bget` hands out a
pool slot `b`: it returns `b` when the sleeplock of `b` is free, and the
caller sleeps in `acquiresleep` on `b` while that lock is held. -/
theorem bget_panics_iff_exhausted (NBUF : Nat) (s : Bcache) (pid dev blockno : Nat)
    (hwf : WF NBUF s) :
    ((bget s pid dev blockno).res = Res.panic "bget: no buffers" ↔
      (∀ x ∈ s.bufmap (BUFMAP_HASH dev blockno),
        ¬ ((s.buf x).dev = dev ∧ (s.buf x).blockno = blockno)) ∧
      ∀ j < NBUF, 0 < (s.buf j).refcnt) ∧
    (∀ msg, (bget s pid dev blockno).res = Res.panic msg → msg = "bget: no buffers") ∧
    (((∃ x ∈ s.bufmap (BUFMAP_HASH dev blockno),
        (s.buf x).dev = dev ∧ (s.buf x).blockno = blockno) ∨
      ∃ j < NBUF, (s.buf j).refcnt = 0) →
      ∃ b, b < NBUF ∧
        ((s.buf b).locked = false → (bget s pid dev blockno).res = Res.ok b) ∧
        ((s.buf b).locked = true → (bget s pid dev blockno).res = Res.sleeping b)) := by
  have hout : ∀ (s1 : Bcache) (b : Nat) (t : List Ev), (s1.buf b).locked = (s.buf b).locked →
      ((s.buf b).locked = false → (acquiresleep s1 pid b t).res = Res.ok b) ∧
      ((s.buf b).locked = true → (acquiresleep s1 pid b t).res = Res.sleeping b) := by
    intro s1 b t he
    constructor
    · intro hl; rw [acquiresleep_free pid t (he.trans hl)]
    · intro hl; rw [acquiresleep_held pid t (he.trans hl)]
  rcases bget_cases s pid dev blockno with ⟨x, hx, t, ht⟩ | ⟨hn, hall, t, ht⟩ | ⟨hn, v, h, hh, hv, ho, t, ht⟩
  · obtain ⟨hmem, hd, hbn⟩ := findBuf_some hx
    rw [ht]
    refine ⟨⟨fun hp => absurd hp (acquiresleep_not_panic _ _ _ _ _), fun hc => ?_⟩,
      fun msg hp => absurd hp (acquiresleep_not_panic _ _ _ _ _), fun _ => ?_⟩
    · exact absurd ⟨hd, hbn⟩ (hc.1 x hmem)
    · refine ⟨x, (hwf.1 _ (BUFMAP_HASH_lt _ _) x hmem).1, hout _ x t ?_⟩
      rw [bumped_buf_self]
  · rw [ht]
    refine ⟨⟨fun _ => ⟨findBuf_none.mp hn, fun j hj => ?_⟩, fun _ => rfl⟩, fun msg hp => ?_,
      fun hc => ?_⟩
    · have h0 := hwf.2.2.2 j hj
      have hne := hall _ (BUFMAP_HASH_lt _ _) j (hwf.2.1 j hj)
      omega
    · have : "bget: no buffers" = msg := by simpa using hp
      exact this.symm
    · rcases hc with ⟨x, hx, hm⟩ | ⟨j, hj, hr⟩
      · exact absurd hm (findBuf_none.mp hn x hx)
      · exact absurd hr (hall _ (BUFMAP_HASH_lt _ _) j (hwf.2.1 j hj))
  · rw [ht]
    have hvlt : v < NBUF := (hwf.1 h hh v hv).1
    refine ⟨⟨fun hp => absurd hp (acquiresleep_not_panic _ _ _ _ _), fun hc => ?_⟩,
      fun msg hp => absurd hp (acquiresleep_not_panic _ _ _ _ _), fun _ => ?_⟩
    · have := hc.2 v hvlt
      rw [ho.1] at this
      exact absurd this (lt_irrefl _)
    · refine ⟨v, hvlt, hout _ v t ?_⟩
      rw [retarget_buf_self]

/-- C6 as amended, at concrete inputs: the fresh pool `demo0`, and `demo1`
where slot 2 is locked. -/
theorem bget_panics_iff_exhausted_witness :
    (bget demo0 1 0 1).res ≠ Res.panic "bget: no buffers" ∧
    (∃ b, b < 3 ∧
      ((demo1.buf b).locked = false → (bget demo1 1 0 1).res = Res.ok b) ∧
      ((demo1.buf b).locked = true → (bget demo1 1 0 1).res = Res.sleeping b)) := by
  have h0 := bget_panics_iff_exhausted 3 demo0 1 0 1 (by decide)
  have h1 := bget_panics_iff_exhausted 3 demo1 1 0 1 (by decide)
  refine ⟨fun hp => ?_, h1.2.2 (Or.inr ⟨0, by decide, by decide⟩)⟩
  have := (h0.1.mp hp).2 0 (by decide)
  revert this
  decide

/-! ## The invariant is preserved -/

theorem findBuf_congr {buf buf1 : Nat → Buf} (dev blockno : Nat) {l : List Nat}
    (h : ∀ y ∈ l, (buf1 y).dev = (buf y).dev ∧ (buf1 y).blockno = (buf y).blockno) :
    findBuf buf1 dev blockno l = findBuf buf dev blockno l := by
  induction l with
  | nil => rfl
  | cons a rest ih =>
    unfold findBuf
    rw [(h a (List.mem_cons_self _ _)).1, (h a (List.mem_cons_self _ _)).2,
      ih (fun y hy => h y (List.mem_cons_of_mem _ hy))]

/-- A chain slot lives in the chain of its hash only. -/
theorem WF.chain_eq {NBUF : Nat} {s : Bcache} (hwf : WF NBUF s) {i j x : Nat}
    (hi : i < NBUFMAP_BUCKET) (hj : j < NBUFMAP_BUCKET) (hxi : x ∈ s.bufmap i)
    (hxj : x ∈ s.bufmap j) : i = j := by
  rw [← (hwf.1 i hi x hxi).2, ← (hwf.1 j hj x hxj).2]

/-- Writes that keep every identity and every chain, keep reference counts
non-negative and put into use only slots that a lookup finds, preserve the
invariant. -/
theorem inv_frame {NBUF : Nat} {s s1 : Bcache} (hinv : Inv NBUF s)
    (hmap : s1.bufmap = s.bufmap)
    (hid : ∀ x, (s1.buf x).dev = (s.buf x).dev ∧ (s1.buf x).blockno = (s.buf x).blockno)
    (href : ∀ x < NBUF, 0 ≤ (s1.buf x).refcnt)
    (huse : ∀ i < NBUFMAP_BUCKET, ∀ x ∈ s.bufmap i, (s1.buf x).inUse →
      (s.buf x).inUse ∨
        findBuf s.buf (s.buf x).dev (s.buf x).blockno (s.bufmap i) = some x) :
    Inv NBUF s1 := by
  obtain ⟨⟨w1, w2, w3, _⟩, hfirst⟩ := hinv
  refine ⟨⟨?_, ?_, ?_, href⟩, ?_⟩
  · intro i hi x hx
    rw [hmap] at hx
    rw [(hid x).1, (hid x).2]
    exact w1 i hi x hx
  · intro x hx
    rw [hmap, (hid x).1, (hid x).2]
    exact w2 x hx
  · intro i hi
    rw [hmap]; exact w3 i hi
  · intro i hi x hx hu
    rw [hmap] at hx ⊢
    rw [(hid x).1, (hid x).2, findBuf_congr _ _ (fun y _ => hid y)]
    rcases huse i hi x hx hu with h | h
    · exact hfirst i hi x hx h
    · exact h

theorem retarget_bufmap_same {s : Bcache} {v h dev blockno : Nat}
    (he : h = BUFMAP_HASH dev blockno) : (retarget s v h dev blockno).bufmap = s.bufmap := by
  simp [retarget, he]

theorem retarget_bufmap_key {s : Bcache} {v h dev blockno : Nat}
    (hne : h ≠ BUFMAP_HASH dev blockno) :
    (retarget s v h dev blockno).bufmap (BUFMAP_HASH dev blockno) =
      v :: s.bufmap (BUFMAP_HASH dev blockno) := by
  simp [retarget, hne]

theorem retarget_bufmap_old {s : Bcache} {v h dev blockno : Nat}
    (hne : h ≠ BUFMAP_HASH dev blockno) :
    (retarget s v h dev blockno).bufmap h = (s.bufmap h).erase v := by
  simp [retarget, hne, setChain]

theorem retarget_bufmap_other {s : Bcache} {v h dev blockno i : Nat}
    (hne : h ≠ BUFMAP_HASH dev blockno) (hik : i ≠ BUFMAP_HASH dev blockno) (hih : i ≠ h) :
    (retarget s v h dev blockno).bufmap i = s.bufmap i := by
  simp [retarget, hne, setChain, hik, hih]

theorem retarget_dev (s : Bcache) (v h dev blockno : Nat) :
    ((retarget s v h dev blockno).buf v).dev = dev ∧
    ((retarget s v h dev blockno).buf v).blockno = blockno ∧
    ((retarget s v h dev blockno).buf v).refcnt = 1 := by
  simp [retarget]

/-- Re-targeting on a miss, in place. -/
theorem inv_retarget_same {NBUF : Nat} {s : Bcache} {v h dev blockno : Nat}
    (hinv : Inv NBUF s)
    (hmiss : findBuf s.buf dev blockno (s.bufmap (BUFMAP_HASH dev blockno)) = none)
    (hh : h < NBUFMAP_BUCKET) (hv : v ∈ s.bufmap h) (he : h = BUFMAP_HASH dev blockno) :
    Inv NBUF (retarget s v h dev blockno) := by
  have hwf := hinv.1
  obtain ⟨⟨w1, w2, w3, w4⟩, hfirst⟩ := hinv
  have hm := findBuf_none.mp hmiss
  have hchain : ∀ i < NBUFMAP_BUCKET, v ∈ s.bufmap i → i = BUFMAP_HASH dev blockno :=
    fun i hi hvi => (hwf.chain_eq hi hh hvi hv).trans he
  obtain ⟨rd, rb, rr⟩ := retarget_dev s v h dev blockno
  refine ⟨⟨?_, ?_, ?_, ?_⟩, ?_⟩
  · intro i hi x hx
    rw [retarget_bufmap_same he] at hx
    refine ⟨(w1 i hi x hx).1, ?_⟩
    by_cases hxv : x = v
    · subst hxv
      rw [rd, rb]; exact (hchain i hi hx).symm
    · rw [retarget_buf_other _ _ _ _ _ _ hxv]; exact (w1 i hi x hx).2
  · intro x hx
    rw [retarget_bufmap_same he]
    by_cases hxv : x = v
    · subst hxv
      rw [rd, rb, ← he]; exact hv
    · rw [retarget_buf_other _ _ _ _ _ _ hxv]; exact w2 x hx
  · intro i hi
    rw [retarget_bufmap_same he]; exact w3 i hi
  · intro x hx
    by_cases hxv : x = v
    · subst hxv; rw [rr]; decide
    · rw [retarget_buf_other _ _ _ _ _ _ hxv]; exact w4 x hx
  · intro i hi x hx hu
    rw [retarget_bufmap_same he] at hx ⊢
    by_cases hxv : x = v
    · subst hxv
      have hik := hchain i hi hx
      rw [rd, rb]
      apply findBuf_unique hx ⟨rd, rb⟩
      intro y hy hyx
      rw [retarget_buf_other _ _ _ _ _ _ hyx]
      rw [hik] at hy
      exact hm y hy
    · rw [retarget_buf_other _ _ _ _ _ _ hxv] at hu ⊢
      apply findBuf_stable (hfirst i hi x hx hu)
      · rw [retarget_buf_other _ _ _ _ _ _ hxv]; exact ⟨rfl, rfl⟩
      · intro y hy _ hmy
        by_cases hyv : y = v
        · subst hyv
          exfalso
          rw [rd, rb] at hmy
          have hik := hchain i hi hy
          rw [hik] at hx
          exact hm x hx ⟨hmy.1.symm, hmy.2.symm⟩
        · rw [retarget_buf_other _ _ _ _ _ _ hyv] at hmy; exact hmy

/-- Re-targeting on a miss, with the victim moved to the head of the target chain. -/
theorem inv_retarget_moved {NBUF : Nat} {s : Bcache} {v h dev blockno : Nat}
    (hinv : Inv NBUF s)
    (hmiss : findBuf s.buf dev blockno (s.bufmap (BUFMAP_HASH dev blockno)) = none)
    (hh : h < NBUFMAP_BUCKET) (hv : v ∈ s.bufmap h) (hne : h ≠ BUFMAP_HASH dev blockno) :
    Inv NBUF (retarget s v h dev blockno) := by
  have hwf := hinv.1
  obtain ⟨⟨w1, w2, w3, w4⟩, hfirst⟩ := hinv
  have hm := findBuf_none.mp hmiss
  have hk := BUFMAP_HASH_lt dev blockno
  have hchain : ∀ i < NBUFMAP_BUCKET, v ∈ s.bufmap i → i = h :=
    fun i hi hvi => hwf.chain_eq hi hh hvi hv
  have hvk : v ∉ s.bufmap (BUFMAP_HASH dev blockno) := fun hc => hne (hchain _ hk hc).symm
  obtain ⟨rd, rb, rr⟩ := retarget_dev s v h dev blockno
  -- membership in the new chains
  have hmem : ∀ i < NBUFMAP_BUCKET, ∀ x, x ∈ (retarget s v h dev blockno).bufmap i →
      (x = v ∧ i = BUFMAP_HASH dev blockno) ∨ (x ≠ v ∧ x ∈ s.bufmap i) := by
    intro i hi x hx
    by_cases hik : i = BUFMAP_HASH dev blockno
    · subst hik
      rw [retarget_bufmap_key hne] at hx
      rcases List.mem_cons.mp hx with hx | hx
      · exact Or.inl ⟨hx, rfl⟩
      · exact Or.inr ⟨fun hxv => hvk (hxv ▸ hx), hx⟩
    · by_cases hih : i = h
      · subst hih
        rw [retarget_bufmap_old hne] at hx
        have := (List.Nodup.mem_erase_iff (w3 i hi)).mp hx
        exact Or.inr ⟨this.1, this.2⟩
      · rw [retarget_bufmap_other hne hik hih] at hx
        exact Or.inr ⟨fun hxv => hih (hchain i hi (hxv ▸ hx)), hx⟩
  have hmem' : ∀ i, ∀ x, x ≠ v → x ∈ s.bufmap i → x ∈ (retarget s v h dev blockno).bufmap i := by
    intro i x hxv hx
    by_cases hik : i = BUFMAP_HASH dev blockno
    · subst hik
      rw [retarget_bufmap_key hne]; exact List.mem_cons_of_mem _ hx
    · by_cases hih : i = h
      · subst hih
        rw [retarget_bufmap_old hne]
        exact (List.mem_erase_of_ne hxv).mpr hx
      · rw [retarget_bufmap_other hne hik hih]; exact hx
  refine ⟨⟨?_, ?_, ?_, ?_⟩, ?_⟩
  · intro i hi x hx
    rcases hmem i hi x hx with ⟨hxv, hik⟩ | ⟨hxv, hxi⟩
    · subst hxv
      exact ⟨(w1 h hh x hv).1, by rw [rd, rb]; exact hik.symm⟩
    · rw [retarget_buf_other _ _ _ _ _ _ hxv]; exact w1 i hi x hxi
  · intro x hx
    by_cases hxv : x = v
    · subst hxv
      rw [rd, rb, retarget_bufmap_key hne]; exact List.mem_cons_self _ _
    · rw [retarget_buf_other _ _ _ _ _ _ hxv]
      exact hmem' _ x hxv (w2 x hx)
  · intro i hi
    by_cases hik : i = BUFMAP_HASH dev blockno
    · subst hik
      rw [retarget_bufmap_key hne]
      exact List.nodup_cons.mpr ⟨hvk, w3 _ hi⟩
    · by_cases hih : i = h
      · subst hih
        rw [retarget_bufmap_old hne]
        exact (w3 i hi).erase v
      · rw [retarget_bufmap_other hne hik hih]; exact w3 i hi
  · intro x hx
    by_cases hxv : x = v
    · subst hxv; rw [rr]; decide
    · rw [retarget_buf_other _ _ _ _ _ _ hxv]; exact w4 x hx
  · intro i hi x hx hu
    rcases hmem i hi x hx with ⟨hxv, hik⟩ | ⟨hxv, hxi⟩
    · subst hxv; subst hik
      rw [rd, rb, retarget_bufmap_key hne]
      unfold findBuf
      rw [if_pos ⟨rd, rb⟩]
    · rw [retarget_buf_other _ _ _ _ _ _ hxv] at hu ⊢
      have hold := hfirst i hi x hxi hu
      have hstab : ∀ l : List Nat, v ∉ l →
          findBuf s.buf (s.buf x).dev (s.buf x).blockno l = some x →
          findBuf (retarget s v h dev blockno).buf (s.buf x).dev (s.buf x).blockno l
            = some x := by
        intro l hvl hl
        rw [findBuf_congr _ _ (fun y hy => ?_)]
        · exact hl
        · have : y ≠ v := fun hyv => hvl (hyv ▸ hy)
          rw [retarget_buf_other _ _ _ _ _ _ this]
          exact ⟨rfl, rfl⟩
      by_cases hik : i = BUFMAP_HASH dev blockno
      · subst hik
        rw [retarget_bufmap_key hne]
        unfold findBuf
        have hnm : ¬ (((retarget s v h dev blockno).buf v).dev = (s.buf x).dev ∧
            ((retarget s v h dev blockno).buf v).blockno = (s.buf x).blockno) := by
          rw [rd, rb]
          intro hc
          exact hm x hxi ⟨hc.1.symm, hc.2.symm⟩
        rw [if_neg hnm]
        exact hstab _ hvk hold
      · by_cases hih : i = h
        · subst hih
          rw [retarget_bufmap_old hne]
          apply hstab
          · intro hc
            exact ((List.Nodup.mem_erase_iff (w3 i hi)).mp hc).1 rfl
          · exact findBuf_erase hold (Ne.symm hxv)
        · rw [retarget_bufmap_other hne hik hih]
          exact hstab _ (fun hc => hih (hchain i hi hc)) hold

theorem inv_retarget {NBUF : Nat} {s : Bcache} {v h dev blockno : Nat}
    (hinv : Inv NBUF s)
    (hmiss : findBuf s.buf dev blockno (s.bufmap (BUFMAP_HASH dev blockno)) = none)
    (hh : h < NBUFMAP_BUCKET) (hv : v ∈ s.bufmap h) :
    Inv NBUF (retarget s v h dev blockno) := by
  by_cases he : h = BUFMAP_HASH dev blockno
  · exact inv_retarget_same hinv hmiss hh hv he
  · exact inv_retarget_moved hinv hmiss hh hv he

/-- The state after the second loop of `binit`. -/
theorem binitLoop_spec (n : Nat) : ∀ (i : Nat) (s : Bcache),
    (∀ x, s.buf x = zeroBuf) → (∀ j, j ≠ 0 → s.bufmap j = []) →
    (∀ x, (binitLoop n i s).buf x = zeroBuf) ∧
    (∀ j, j ≠ 0 → (binitLoop n i s).bufmap j = []) ∧
    (binitLoop n i s).bufmap 0 = (List.range' i n).reverse ++ s.bufmap 0 := by
  induction n with
  | zero => intro i s h1 h2; exact ⟨h1, h2, by simp [binitLoop]⟩
  | succ n ih =>
    intro i s h1 h2
    unfold binitLoop
    have hb : ∀ x, (setBuf s.buf i
        { s.buf i with locked := false, pid := 0, lastuse := 0, refcnt := 0 }) x = zeroBuf := by
      intro x
      by_cases hx : x = i
      · subst hx; rw [setBuf_same, h1]; rfl
      · rw [setBuf_other _ _ _ _ hx, h1]
    have hc : ∀ j, j ≠ 0 → setChain s.bufmap 0 (i :: s.bufmap 0) j = [] := by
      intro j hj
      rw [setChain_other _ _ _ _ hj]; exact h2 j hj
    obtain ⟨r1, r2, r3⟩ := ih (i + 1)
      { s with
        buf := setBuf s.buf i { s.buf i with locked := false, pid := 0, lastuse := 0, refcnt := 0 }
        bufmap := setChain s.bufmap 0 (i :: s.bufmap 0) } hb hc
    refine ⟨r1, r2, ?_⟩
    rw [r3]
    simp [List.range'_succ]

theorem inv_binit (NBUF ticks : Nat) (disk : Nat → Nat → Data) :
    Inv NBUF (binit NBUF (boot ticks disk)) := by
  obtain ⟨r1, r2, r3⟩ := binitLoop_spec NBUF 0 { boot ticks disk with bufmap := fun _ => [] }
    (fun _ => rfl) (fun _ _ => rfl)
  have r3' : (binit NBUF (boot ticks disk)).bufmap 0 = (List.range' 0 NBUF).reverse := by
    unfold binit; rw [r3]; simp
  have r1' : ∀ x, (binit NBUF (boot ticks disk)).buf x = zeroBuf := r1
  have r2' : ∀ j, j ≠ 0 → (binit NBUF (boot ticks disk)).bufmap j = [] := r2
  have hz : BUFMAP_HASH zeroBuf.dev zeroBuf.blockno = 0 := by decide
  have hmem : ∀ i x, x ∈ (binit NBUF (boot ticks disk)).bufmap i → i = 0 ∧ x < NBUF := by
    intro i x hx
    by_cases hi : i = 0
    · subst hi
      rw [r3'] at hx
      have := List.mem_range'_1.mp (List.mem_reverse.mp hx)
      exact ⟨rfl, by omega⟩
    · rw [r2' i hi] at hx; cases hx
  refine ⟨⟨?_, ?_, ?_, ?_⟩, ?_⟩
  · intro i _ x hx
    obtain ⟨hi, hlt⟩ := hmem i x hx
    rw [r1' x, hz]
    exact ⟨hlt, hi.symm⟩
  · intro x hx
    rw [r1' x, hz, r3']
    exact List.mem_reverse.mpr (List.mem_range'_1.mpr ⟨by omega, by omega⟩)
  · intro i _
    by_cases hi : i = 0
    · subst hi
      rw [r3']
      exact List.nodup_reverse.mpr (List.nodup_range' 0 NBUF)
    · rw [r2' i hi]; exact List.nodup_nil
  · intro x _
    rw [r1' x]; decide
  · intro i _ x _ hu
    rw [r1' x] at hu
    exact absurd hu (by decide)

theorem inv_bget {NBUF : Nat} {s : Bcache} (hinv : Inv NBUF s) (pid dev blockno : Nat) :
    Inv NBUF (bget s pid dev blockno).st := by
  rcases bget_cases s pid dev blockno with ⟨b, hb, t, ht⟩ | ⟨_, _, t, ht⟩ | ⟨hn, v, h, hh, hv, _, t, ht⟩
  · rw [ht]
    obtain ⟨hmem, hd, hbn⟩ := findBuf_some hb
    have hf := acquiresleep_buf (bumped s b) pid b t
    have hk := BUFMAP_HASH_lt dev blockno
    have hsame : ∀ x, x ≠ b → (acquiresleep (bumped s b) pid b t).st.buf x = s.buf x := by
      intro x hx
      rw [(hf x).2.2.2.2.2.2 hx, bumped_buf_other _ _ _ hx]
    apply inv_frame hinv
    · rw [acquiresleep_bufmap]; rfl
    · intro x
      by_cases hx : x = b
      · subst hx
        rw [(hf x).1, (hf x).2.1, bumped_buf_self]
        exact ⟨rfl, rfl⟩
      · rw [hsame x hx]; exact ⟨rfl, rfl⟩
    · intro x hx
      by_cases hxb : x = b
      · subst hxb
        rw [(hf x).2.2.1, bumped_buf_self]
        have := hinv.1.2.2.2 x hx
        show 0 ≤ (s.buf x).refcnt + 1
        omega
      · rw [hsame x hxb]; exact hinv.1.2.2.2 x hx
    · intro i hi x hx hu
      by_cases hxb : x = b
      · subst hxb
        right
        have hik : i = BUFMAP_HASH dev blockno := hinv.1.chain_eq hi hk hx hmem
        rw [hik, hd, hbn]; exact hb
      · rw [hsame x hxb] at hu; exact Or.inl hu
  · rw [ht]; exact hinv
  · rw [ht]
    have hr := inv_retarget hinv hn hh hv
    have hf := acquiresleep_buf (retarget s v h dev blockno) pid v t
    apply inv_frame hr
    · rw [acquiresleep_bufmap]
    · intro x; exact ⟨(hf x).1, (hf x).2.1⟩
    · intro x hx
      rw [(hf x).2.2.1]; exact hr.1.2.2.2 x hx
    · intro i _ x _ hu
      left
      by_cases hxv : x = v
      · subst hxv
        left
        rw [(retarget_dev s x h dev blockno).2.2]; decide
      · rw [(hf x).2.2.2.2.2.2 hxv] at hu; exact hu

/-- A hit goes through the fast path. -/
theorem bget_hit {s : Bcache} {dev blockno b : Nat} (pid : Nat)
    (h : findBuf s.buf dev blockno (s.bufmap (BUFMAP_HASH dev blockno)) = some b) :
    ∃ t, bget s pid dev blockno = acquiresleep (bumped s b) pid b t := by
  rcases bget_cases s pid dev blockno with ⟨x, hx, t, ht⟩ | ⟨hn, _⟩ | ⟨hn, _⟩
  · rw [h] at hx
    cases hx
    exact ⟨t, ht⟩
  · rw [h] at hn; cases hn
  · rw [h] at hn; cases hn

/-- The slot `bget` returns is locked by the caller and is the slot a lookup
of the requested identity now finds. -/
theorem bget_ok_found {s : Bcache} {pid dev blockno b : Nat}
    (hret : (bget s pid dev blockno).res = Res.ok b) :
    findBuf (bget s pid dev blockno).st.buf dev blockno
      ((bget s pid dev blockno).st.bufmap (BUFMAP_HASH dev blockno)) = some b ∧
    holdingsleep (bget s pid dev blockno).st pid b = true := by
  rcases bget_cases s pid dev blockno with ⟨x, hx, t, ht⟩ | ⟨_, _, t, ht⟩ | ⟨hn, v, h, hh, hv, _, t, ht⟩
  · rw [ht] at hret ⊢
    obtain ⟨hb, hl⟩ := acquiresleep_ok hret
    subst hb
    have hf := acquiresleep_buf (bumped s b) pid b t
    constructor
    · rw [acquiresleep_bufmap, findBuf_congr dev blockno (fun y _ => ⟨(hf y).1, (hf y).2.1⟩)]
      rw [@findBuf_congr s.buf _ dev blockno _]
      · exact hx
      · intro y _
        by_cases hy : y = b
        · subst hy; rw [bumped_buf_self]; exact ⟨rfl, rfl⟩
        · rw [bumped_buf_other _ _ _ hy]; exact ⟨rfl, rfl⟩
    · rw [acquiresleep_free pid t hl]
      simp [holdingsleep]
  · rw [ht] at hret; cases hret
  · rw [ht] at hret ⊢
    obtain ⟨hb, hl⟩ := acquiresleep_ok hret
    subst hb
    have hf := acquiresleep_buf (retarget s b h dev blockno) pid b t
    obtain ⟨rd, rb, _⟩ := retarget_dev s b h dev blockno
    constructor
    · rw [acquiresleep_bufmap, findBuf_congr dev blockno (fun y _ => ⟨(hf y).1, (hf y).2.1⟩)]
      by_cases he : h = BUFMAP_HASH dev blockno
      · rw [retarget_bufmap_same he]
        apply findBuf_unique (he ▸ hv) ⟨rd, rb⟩
        intro y hy hyb
        rw [retarget_buf_other _ _ _ _ _ _ hyb]
        exact findBuf_none.mp hn y hy
      · rw [retarget_bufmap_key he]
        unfold findBuf
        rw [if_pos ⟨rd, rb⟩]
    · rw [acquiresleep_free pid t hl]
      simp [holdingsleep]

theorem holdingsleep_locked {s : Bcache} {pid b : Nat} (h : holdingsleep s pid b = true) :
    (s.buf b).locked = true ∧ (s.buf b).pid = pid := by
  simpa [holdingsleep] using h

theorem filled_buf_other (s : Bcache) (b x : Nat) (hx : x ≠ b) : (filled s b).buf x = s.buf x := by
  simp [filled, virtio_disk_rw, setBuf, hx]

theorem filled_buf_self (s : Bcache) (b : Nat) :
    ((filled s b).buf b).dev = (s.buf b).dev ∧
    ((filled s b).buf b).blockno = (s.buf b).blockno ∧
    ((filled s b).buf b).refcnt = (s.buf b).refcnt ∧
    ((filled s b).buf b).valid = 1 ∧
    ((filled s b).buf b).data = s.disk (s.buf b).dev (s.buf b).blockno ∧
    ((filled s b).buf b).locked = (s.buf b).locked := by
  simp [filled, virtio_disk_rw]

/-- The two states `bread` can leave behind. -/
theorem bread_st (s : Bcache) (pid dev blockno : Nat) :
    (bread s pid dev blockno).st = (bget s pid dev blockno).st ∨
    ∃ b, (bget s pid dev blockno).res = Res.ok b ∧
      ((bget s pid dev blockno).st.buf b).valid = 0 ∧
      (bread s pid dev blockno).st = filled (bget s pid dev blockno).st b := by
  cases hr : (bget s pid dev blockno).res with
  | ok b =>
    by_cases hv : ((bget s pid dev blockno).st.buf b).valid = 0
    · right
      refine ⟨b, rfl, hv, ?_⟩
      unfold bread
      simp only [hr, hv, if_true]
      rfl
    · left
      unfold bread
      simp only [hr, hv, if_false]
  | panic msg =>
    left
    unfold bread
    simp only [hr]
  | sleeping b =>
    left
    unfold bread
    simp only [hr]

theorem inv_bread {NBUF : Nat} {s : Bcache} (hinv : Inv NBUF s) (pid dev blockno : Nat) :
    Inv NBUF (bread s pid dev blockno).st := by
  have hg := inv_bget hinv pid dev blockno
  rcases bread_st s pid dev blockno with h | ⟨b, hb, _, h⟩
  · rw [h]; exact hg
  · rw [h]
    have hl := (holdingsleep_locked (bget_ok_found hb).2).1
    obtain ⟨f1, f2, f3, _, _, _⟩ := filled_buf_self (bget s pid dev blockno).st b
    apply inv_frame hg
    · rfl
    · intro x
      by_cases hx : x = b
      · subst hx; exact ⟨f1, f2⟩
      · rw [filled_buf_other _ _ _ hx]; exact ⟨rfl, rfl⟩
    · intro x hx
      by_cases hxb : x = b
      · subst hxb; rw [f3]; exact hg.1.2.2.2 x hx
      · rw [filled_buf_other _ _ _ hxb]; exact hg.1.2.2.2 x hx
    · intro i _ x _ hu
      left
      by_cases hxb : x = b
      · subst hxb; exact Or.inr (Or.inr hl)
      · rw [filled_buf_other _ _ _ hxb] at hu; exact hu

theorem inv_bwrite {NBUF : Nat} {s : Bcache} (hinv : Inv NBUF s) (pid b : Nat) :
    Inv NBUF (bwrite s pid b).st := by
  apply inv_frame hinv
  · unfold bwrite; split <;> rfl
  · intro x; unfold bwrite; split <;> exact ⟨rfl, rfl⟩
  · intro x hx; unfold bwrite; split <;> exact hinv.1.2.2.2 x hx
  · intro i _ x _ hu
    left
    unfold bwrite at hu
    split at hu <;> exact hu

/-- The slot `brelse` leaves behind when the caller holds the sleeplock. -/
theorem brelse_buf {s : Bcache} {pid b : Nat} (h : holdingsleep s pid b = true) :
    ((brelse s pid b).st.buf b).dev = (s.buf b).dev ∧
    ((brelse s pid b).st.buf b).blockno = (s.buf b).blockno ∧
    ((brelse s pid b).st.buf b).refcnt = (s.buf b).refcnt - 1 ∧
    ((brelse s pid b).st.buf b).valid = (s.buf b).valid ∧
    ((brelse s pid b).st.buf b).data = (s.buf b).data ∧
    ((brelse s pid b).st.buf b).locked = false ∧
    (∀ x, x ≠ b → (brelse s pid b).st.buf x = s.buf x) ∧
    (brelse s pid b).st.bufmap = s.bufmap ∧
    (brelse s pid b).st.disk = s.disk := by
  refine ⟨?_, ?_, ?_, ?_, ?_, ?_, ?_, ?_, ?_⟩
  all_goals unfold brelse
  all_goals simp only [h, Bool.true_eq_false, if_false, releasesleep, setBuf_same]
  all_goals first
    | (intro x hx; simp [setBuf, hx])
    | (split <;> rfl)

theorem brelse_panic {s : Bcache} {pid b : Nat} (h : holdingsleep s pid b = false) :
    (brelse s pid b).st = s := by
  unfold brelse
  simp only [h, if_true]

theorem inv_brelse {NBUF : Nat} {s : Bcache} (hinv : Inv NBUF s) (pid b : Nat)
    (hr : 0 < (s.buf b).refcnt) : Inv NBUF (brelse s pid b).st := by
  cases hh : holdingsleep s pid b with
  | false => rw [brelse_panic hh]; exact hinv
  | true =>
    obtain ⟨b1, b2, b3, _, _, _, b7, b8, _⟩ := brelse_buf hh
    apply inv_frame hinv b8
    · intro x
      by_cases hx : x = b
      · subst hx; exact ⟨b1, b2⟩
      · rw [b7 x hx]; exact ⟨rfl, rfl⟩
    · intro x hx
      by_cases hxb : x = b
      · subst hxb; rw [b3]; omega
      · rw [b7 x hxb]; exact hinv.1.2.2.2 x hx
    · intro i _ x _ hu
      left
      by_cases hxb : x = b
      · subst hxb; exact Or.inr (Or.inr (holdingsleep_locked hh).1)
      · rw [b7 x hxb] at hu; exact hu

theorem inv_bpin {NBUF : Nat} {s : Bcache} (hinv : Inv NBUF s) (b : Nat)
    (hr : 0 < (s.buf b).refcnt) : Inv NBUF (bpin s b).st := by
  apply inv_frame hinv
  · rfl
  · intro x
    by_cases hx : x = b
    · subst hx; simp [bpin]
    · simp [bpin, setBuf, hx]
  · intro x hx
    by_cases hxb : x = b
    · subst hxb
      simp only [bpin, setBuf_same]
      omega
    · simpa [bpin, setBuf, hxb] using hinv.1.2.2.2 x hx
  · intro i _ x _ hu
    left
    by_cases hxb : x = b
    · subst hxb; exact Or.inl (by omega)
    · simpa [bpin, setBuf, hxb] using hu

theorem inv_bunpin {NBUF : Nat} {s : Bcache} (hinv : Inv NBUF s) (b : Nat)
    (hr : 0 < (s.buf b).refcnt) : Inv NBUF (bunpin s b).st := by
  apply inv_frame hinv
  · rfl
  · intro x
    by_cases hx : x = b
    · subst hx; simp [bunpin]
    · simp [bunpin, setBuf, hx]
  · intro x hx
    by_cases hxb : x = b
    · subst hxb
      simp only [bunpin, setBuf_same]
      omega
    · simpa [bunpin, setBuf, hxb] using hinv.1.2.2.2 x hx
  · intro i _ x _ hu
    left
    by_cases hxb : x = b
    · subst hxb; exact Or.inl (by omega)
    · simpa [bunpin, setBuf, hxb] using hu

/-- Every reachable state satisfies the invariant. -/
theorem inv_of_reachable {NBUF : Nat} {s : Bcache} (h : Reachable NBUF s) : Inv NBUF s := by
  induction h with
  | init ticks disk => exact inv_binit NBUF ticks disk
  | bget _ pid dev blockno ih => exact inv_bget ih pid dev blockno
  | bread _ pid dev blockno ih => exact inv_bread ih pid dev blockno
  | bwrite _ pid b _ _ ih => exact inv_bwrite ih pid b
  | brelse _ pid b _ hr ih => exact inv_brelse ih pid b hr
  | bpin _ b _ hr ih => exact inv_bpin ih b hr
  | bunpin _ b _ hr ih => exact inv_bunpin ih b hr
  | tick _ t ih => exact inv_frame ih rfl (fun _ => ⟨rfl, rfl⟩) ih.1.2.2.2 (fun _ _ _ _ hu => Or.inl hu)
  | @store s _ pid b d _ hh ih =>
    apply inv_frame ih
    · rfl
    · intro x
      by_cases hx : x = b
      · subst hx; simp
      · simp [setBuf, hx]
    · intro x hx
      by_cases hxb : x = b
      · subst hxb; simpa using ih.1.2.2.2 x hx
      · simpa [setBuf, hxb] using ih.1.2.2.2 x hx
    · intro i _ x _ hu
      left
      by_cases hxb : x = b
      · subst hxb; exact Or.inr (Or.inr (holdingsleep_locked hh).1)
      · simpa [setBuf, hxb] using hu

/-! ## Uniqueness and bucket consistency -/

/-- C3: in every reachable state no two distinct pool slots with the same
`(dev, blockno)` both have a positive reference count; a `bget` for the
identity of a slot with a positive reference count is handed that slot; and
once `bget` has returned slot `b` for a block, a further `bget` for that block
is handed the same slot: the caller sleeps on `b` while the first holder keeps
it, and gets `b` returned once the first holder has released it with `brelse`. -/
theorem uniqueness (NBUF : Nat) (s : Bcache) (h : Reachable NBUF s) :
    (∀ a < NBUF, ∀ b < NBUF, a ≠ b →
      (s.buf a).dev = (s.buf b).dev → (s.buf a).blockno = (s.buf b).blockno →
      ¬ (0 < (s.buf a).refcnt ∧ 0 < (s.buf b).refcnt)) ∧
    (∀ b < NBUF, 0 < (s.buf b).refcnt → ∀ pid,
      (bget s pid (s.buf b).dev (s.buf b).blockno).res = Res.ok b ∨
      (bget s pid (s.buf b).dev (s.buf b).blockno).res = Res.sleeping b) ∧
    (∀ pid dev blockno b, (bget s pid dev blockno).res = Res.ok b →
      ∀ pid1,
        (bget (bget s pid dev blockno).st pid1 dev blockno).res = Res.sleeping b ∧
        (bget (brelse (bget s pid dev blockno).st pid b).st pid1 dev blockno).res
          = Res.ok b) := by
  have hinv := inv_of_reachable h
  refine ⟨?_, ?_, ?_⟩
  · intro a ha b hb hab hd hn hr
    have hk := BUFMAP_HASH_lt (s.buf a).dev (s.buf a).blockno
    have hma := hinv.1.2.1 a ha
    have hmb := hinv.1.2.1 b hb
    rw [← hd, ← hn] at hmb
    have fa := hinv.2 _ hk a hma (Or.inl (by omega))
    have fb := hinv.2 _ hk b hmb (Or.inl (by omega))
    rw [← hd, ← hn, fa] at fb
    exact hab (by simpa using fb)
  · intro b hb hr pid
    have hk := BUFMAP_HASH_lt (s.buf b).dev (s.buf b).blockno
    have hfound := hinv.2 _ hk b (hinv.1.2.1 b hb) (Or.inl (by omega))
    obtain ⟨t, ht⟩ := bget_hit pid hfound
    rw [ht]
    cases hl : ((bumped s b).buf b).locked with
    | false => left; rw [acquiresleep_free pid t hl]
    | true => right; rw [acquiresleep_held pid t hl]
  · intro pid dev blockno b hret pid1
    obtain ⟨hfound, hhold⟩ := bget_ok_found hret
    constructor
    · obtain ⟨t, ht⟩ := bget_hit pid1 hfound
      rw [ht, acquiresleep_held pid1 t]
      rw [bumped_buf_self]
      exact (holdingsleep_locked hhold).1
    · obtain ⟨b1, b2, _, _, _, b6, b7, b8, _⟩ := brelse_buf hhold
      have hfound2 : findBuf (brelse (bget s pid dev blockno).st pid b).st.buf dev blockno
          ((brelse (bget s pid dev blockno).st pid b).st.bufmap (BUFMAP_HASH dev blockno))
            = some b := by
        rw [b8, @findBuf_congr (bget s pid dev blockno).st.buf _ dev blockno _]
        · exact hfound
        · intro y _
          by_cases hy : y = b
          · subst hy; exact ⟨b1, b2⟩
          · rw [b7 y hy]; exact ⟨rfl, rfl⟩
      obtain ⟨t, ht⟩ := bget_hit pid1 hfound2
      rw [ht, acquiresleep_free pid1 t]
      rw [bumped_buf_self]
      exact b6

/-- C3 at a concrete input: the state `demo1`, reached by one `bget` from `binit`. -/
theorem uniqueness_witness :
    (∀ a < 3, ∀ b < 3, a ≠ b →
      (demo1.buf a).dev = (demo1.buf b).dev → (demo1.buf a).blockno = (demo1.buf b).blockno →
      ¬ (0 < (demo1.buf a).refcnt ∧ 0 < (demo1.buf b).refcnt)) ∧
    (∀ b < 3, 0 < (demo1.buf b).refcnt → ∀ pid,
      (bget demo1 pid (demo1.buf b).dev (demo1.buf b).blockno).res = Res.ok b ∨
      (bget demo1 pid (demo1.buf b).dev (demo1.buf b).blockno).res = Res.sleeping b) ∧
    (∀ pid dev blockno b, (bget demo1 pid dev blockno).res = Res.ok b →
      ∀ pid1,
        (bget (bget demo1 pid dev blockno).st pid1 dev blockno).res = Res.sleeping b ∧
        (bget (brelse (bget demo1 pid dev blockno).st pid b).st pid1 dev blockno).res
          = Res.ok b) :=
  uniqueness 3 demo1 (Reachable.bget (Reachable.init 0 (fun _ _ => [])) 1 0 1)

/-- C4: in every reachable state the chains hold pool slots only, and every
pool slot occurs exactly once in the chain of `BUFMAP_HASH` of its current
identity and in no other chain. -/
theorem bucket_consistency (NBUF : Nat) (s : Bcache) (h : Reachable NBUF s) :
    (∀ i < NBUFMAP_BUCKET, ∀ b ∈ s.bufmap i, b < NBUF) ∧
    (∀ b < NBUF, ∀ i < NBUFMAP_BUCKET,
      List.count b (s.bufmap i) =
        if i = BUFMAP_HASH (s.buf b).dev (s.buf b).blockno then 1 else 0) := by
  have hinv := inv_of_reachable h
  obtain ⟨w1, w2, w3, _⟩ := hinv.1
  refine ⟨fun i hi b hb => (w1 i hi b hb).1, fun b hb i hi => ?_⟩
  by_cases hik : i = BUFMAP_HASH (s.buf b).dev (s.buf b).blockno
  · rw [if_pos hik, hik]
    exact List.count_eq_one_of_mem (w3 _ (BUFMAP_HASH_lt _ _)) (w2 b hb)
  · rw [if_neg hik]
    apply List.count_eq_zero_of_not_mem
    intro hc
    exact hik (w1 i hi b hc).2.symm

/-- C4 at a concrete input: the state `demo1`, in which slot 2 has moved from
bucket 0 to bucket 1. -/
theorem bucket_consistency_witness :
    (∀ i < NBUFMAP_BUCKET, ∀ b ∈ demo1.bufmap i, b < 3) ∧
    (∀ b < 3, ∀ i < NBUFMAP_BUCKET,
      List.count b (demo1.bufmap i) =
        if i = BUFMAP_HASH (demo1.buf b).dev (demo1.buf b).blockno then 1 else 0) :=
  bucket_consistency 3 demo1 (Reachable.bget (Reachable.init 0 (fun _ _ => [])) 1 0 1)

/-! ## Write-through -/

theorem fresh_frame {dev blockno : Nat} {d : Data} {s s1 : Bcache}
    (h : Fresh dev blockno d s) (hdisk : s1.disk = s.disk)
    (hb : ∀ x ∈ s1.bufmap (BUFMAP_HASH dev blockno),
      (s1.buf x).dev = dev → (s1.buf x).blockno = blockno → (s1.buf x).valid ≠ 0 →
      x ∈ s.bufmap (BUFMAP_HASH dev blockno) ∧ (s.buf x).dev = dev ∧
        (s.buf x).blockno = blockno ∧ (s.buf x).valid ≠ 0 ∧ (s1.buf x).data = (s.buf x).data) :
    Fresh dev blockno d s1 := by
  refine ⟨by rw [hdisk]; exact h.1, fun x hx h1 h2 h3 => ?_⟩
  obtain ⟨m, e1, e2, e3, e4⟩ := hb x hx h1 h2 h3
  rw [e4]; exact h.2 x m e1 e2 e3

theorem retarget_disk (s : Bcache) (v h dev blockno : Nat) :
    (retarget s v h dev blockno).disk = s.disk := rfl

theorem bumped_disk (s : Bcache) (b : Nat) : (bumped s b).disk = s.disk := rfl

theorem bumped_bufmap (s : Bcache) (b : Nat) : (bumped s b).bufmap = s.bufmap := rfl

/-- A slot on a chain after re-targeting is the victim or was on that chain before. -/
theorem retarget_mem {s : Bcache} {v h dev blockno i x : Nat}
    (hx : x ∈ (retarget s v h dev blockno).bufmap i) : x = v ∨ x ∈ s.bufmap i := by
  by_cases he : h = BUFMAP_HASH dev blockno
  · rw [retarget_bufmap_same he] at hx; exact Or.inr hx
  · by_cases hik : i = BUFMAP_HASH dev blockno
    · subst hik
      rw [retarget_bufmap_key he] at hx
      exact List.mem_cons.mp hx
    · by_cases hih : i = h
      · subst hih
        rw [retarget_bufmap_old he] at hx
        exact Or.inr (List.mem_of_mem_erase hx)
      · rw [retarget_bufmap_other he hik hih] at hx
        exact Or.inr hx

theorem bget_disk (s : Bcache) (pid dev blockno : Nat) :
    (bget s pid dev blockno).st.disk = s.disk := by
  rcases bget_cases s pid dev blockno with ⟨b, _, t, ht⟩ | ⟨_, _, t, ht⟩ | ⟨_, v, h, _, _, _, t, ht⟩
  · rw [ht, acquiresleep_disk]; rfl
  · rw [ht]
  · rw [ht, acquiresleep_disk]; rfl

/-- What a returned slot holds: the requested identity, and either no valid
contents or the unchanged contents of the slot the lookup found. -/
theorem bget_ok_contents {s : Bcache} {pid dev blockno b : Nat}
    (hret : (bget s pid dev blockno).res = Res.ok b) :
    ((bget s pid dev blockno).st.buf b).dev = dev ∧
    ((bget s pid dev blockno).st.buf b).blockno = blockno ∧
    (((bget s pid dev blockno).st.buf b).valid = 0 ∨
      (b ∈ s.bufmap (BUFMAP_HASH dev blockno) ∧ (s.buf b).dev = dev ∧
        (s.buf b).blockno = blockno ∧
        ((bget s pid dev blockno).st.buf b).valid = (s.buf b).valid ∧
        ((bget s pid dev blockno).st.buf b).data = (s.buf b).data)) := by
  rcases bget_cases s pid dev blockno with ⟨x, hx, t, ht⟩ | ⟨_, _, t, ht⟩ | ⟨hn, v, h, hh, hv, ho, t, ht⟩
  · rw [ht] at hret ⊢
    obtain ⟨hb, _⟩ := acquiresleep_ok hret
    subst hb
    have hf := acquiresleep_buf (bumped s b) pid b t b
    obtain ⟨hmem, hd, hn⟩ := findBuf_some hx
    refine ⟨?_, ?_, Or.inr ⟨hmem, hd, hn, ?_, ?_⟩⟩
    · rw [hf.1, bumped_buf_self]; exact hd
    · rw [hf.2.1, bumped_buf_self]; exact hn
    · rw [hf.2.2.2.1, bumped_buf_self]
    · rw [hf.2.2.2.2.2.1, bumped_buf_self]
  · rw [ht] at hret; cases hret
  · rw [ht] at hret ⊢
    obtain ⟨hb, _⟩ := acquiresleep_ok hret
    subst hb
    have hf := acquiresleep_buf (retarget s b h dev blockno) pid b t b
    refine ⟨?_, ?_, Or.inl ?_⟩
    · rw [hf.1, retarget_buf_self]
    · rw [hf.2.1, retarget_buf_self]
    · rw [hf.2.2.2.1, retarget_buf_self]

/-- A call of `bget` for another block keeps the copies of `(dev, blockno)` fresh. -/
theorem fresh_bget {dev blockno : Nat} {d : Data} {s : Bcache}
    (h : Fresh dev blockno d s) (pid dev1 blockno1 : Nat)
    (hne : ¬ (dev1 = dev ∧ blockno1 = blockno)) :
    Fresh dev blockno d (bget s pid dev1 blockno1).st := by
  rcases bget_cases s pid dev1 blockno1 with ⟨b, _, t, ht⟩ | ⟨_, _, t, ht⟩ | ⟨_, v, h1, _, _, _, t, ht⟩
  · rw [ht]
    have hf := acquiresleep_buf (bumped s b) pid b t
    have hsame : ∀ x, ((acquiresleep (bumped s b) pid b t).st.buf x).dev = (s.buf x).dev ∧
        ((acquiresleep (bumped s b) pid b t).st.buf x).blockno = (s.buf x).blockno ∧
        ((acquiresleep (bumped s b) pid b t).st.buf x).valid = (s.buf x).valid ∧
        ((acquiresleep (bumped s b) pid b t).st.buf x).data = (s.buf x).data := by
      intro x
      rw [(hf x).1, (hf x).2.1, (hf x).2.2.2.1, (hf x).2.2.2.2.2.1]
      by_cases hx : x = b
      · subst hx; rw [bumped_buf_self]; exact ⟨rfl, rfl, rfl, rfl⟩
      · rw [bumped_buf_other _ _ _ hx]; exact ⟨rfl, rfl, rfl, rfl⟩
    apply fresh_frame h
    · rw [acquiresleep_disk]; rfl
    · intro x hx h1 h2 h3
      rw [acquiresleep_bufmap] at hx
      obtain ⟨e1, e2, e3, e4⟩ := hsame x
      exact ⟨hx, e1 ▸ h1, e2 ▸ h2, e3 ▸ h3, e4⟩
  · rw [ht]; exact h
  · rw [ht]
    have hf := acquiresleep_buf (retarget s v h1 dev1 blockno1) pid v t
    apply fresh_frame h
    · rw [acquiresleep_disk]; rfl
    · intro x hx h1' h2 h3
      rw [acquiresleep_bufmap] at hx
      rw [(hf x).1] at h1'
      rw [(hf x).2.1] at h2
      rw [(hf x).2.2.2.1] at h3
      rw [(hf x).2.2.2.2.2.1]
      by_cases hxv : x = v
      · subst hxv
        exfalso
        obtain ⟨rd, rb, _⟩ := retarget_dev s x h1 dev1 blockno1
        rw [rd] at h1'
        rw [rb] at h2
        exact hne ⟨h1', h2⟩
      · rw [retarget_buf_other _ _ _ _ _ _ hxv] at h1' h2 h3 ⊢
        rcases retarget_mem hx with hc | hc
        · exact absurd hc hxv
        · exact ⟨hc, h1', h2, h3, rfl⟩

theorem bread_res (s : Bcache) (pid dev blockno : Nat) :
    (bread s pid dev blockno).res = (bget s pid dev blockno).res := by
  cases hr : (bget s pid dev blockno).res with
  | ok b =>
    unfold bread
    simp only [hr]
    split
    · rfl
    · exact hr
  | panic msg => unfold bread; simp only [hr]
  | sleeping b => unfold bread; simp only [hr]

theorem fresh_bread {dev blockno : Nat} {d : Data} {s : Bcache}
    (h : Fresh dev blockno d s) (pid dev1 blockno1 : Nat)
    (hne : ¬ (dev1 = dev ∧ blockno1 = blockno)) :
    Fresh dev blockno d (bread s pid dev1 blockno1).st := by
  have hg := fresh_bget h pid dev1 blockno1 hne
  rcases bread_st s pid dev1 blockno1 with e | ⟨b, hb, _, e⟩
  · rw [e]; exact hg
  · rw [e]
    obtain ⟨c1, c2, _⟩ := bget_ok_contents hb
    obtain ⟨f1, f2, _⟩ := filled_buf_self (bget s pid dev1 blockno1).st b
    apply fresh_frame hg
    · rfl
    intro x hx h1 h2 h3
    by_cases hxb : x = b
    · subst hxb
      exfalso
      rw [f1] at h1
      rw [f2] at h2
      exact hne ⟨c1.symm.trans h1, c2.symm.trans h2⟩
    · rw [filled_buf_other _ _ _ hxb] at h1 h2 h3 ⊢
      exact ⟨hx, h1, h2, h3, rfl⟩

theorem fresh_brelse {dev blockno : Nat} {d : Data} {s : Bcache}
    (h : Fresh dev blockno d s) (pid b : Nat) :
    Fresh dev blockno d (brelse s pid b).st := by
  cases hh : holdingsleep s pid b with
  | false => rw [brelse_panic hh]; exact h
  | true =>
    obtain ⟨b1, b2, _, b4, b5, _, b7, b8, b9⟩ := brelse_buf hh
    apply fresh_frame h b9
    intro x hx h1 h2 h3
    rw [b8] at hx
    by_cases hxb : x = b
    · subst hxb
      exact ⟨hx, b1 ▸ h1, b2 ▸ h2, b4 ▸ h3, b5⟩
    · rw [b7 x hxb] at h1 h2 h3 ⊢
      exact ⟨hx, h1, h2, h3, rfl⟩

theorem fresh_other_calls {dev blockno : Nat} {d : Data} {s t : Bcache}
    (hc : OtherCalls dev blockno s t) (h : Fresh dev blockno d s) : Fresh dev blockno d t := by
  induction hc with
  | refl => exact h
  | bget _ pid dev1 blockno1 hne ih => exact fresh_bget ih pid dev1 blockno1 hne
  | bread _ pid dev1 blockno1 hne ih => exact fresh_bread ih pid dev1 blockno1 hne
  | brelse _ pid b _ ih => exact fresh_brelse ih pid b

theorem bread_st_valid {s : Bcache} {pid dev blockno b : Nat}
    (hr : (bget s pid dev blockno).res = Res.ok b)
    (hv : ((bget s pid dev blockno).st.buf b).valid ≠ 0) :
    (bread s pid dev blockno).st = (bget s pid dev blockno).st := by
  unfold bread
  simp only [hr, hv, if_false]

theorem bread_st_invalid {s : Bcache} {pid dev blockno b : Nat}
    (hr : (bget s pid dev blockno).res = Res.ok b)
    (hv : ((bget s pid dev blockno).st.buf b).valid = 0) :
    (bread s pid dev blockno).st = filled (bget s pid dev blockno).st b := by
  unfold bread
  simp only [hr, hv, if_true]
  rfl

theorem bwrite_st {s : Bcache} {pid b : Nat} (h : holdingsleep s pid b = true) :
    (bwrite s pid b).st.buf = s.buf ∧ (bwrite s pid b).st.bufmap = s.bufmap ∧
    (bwrite s pid b).st.disk (s.buf b).dev (s.buf b).blockno = (s.buf b).data := by
  unfold bwrite
  simp [h, virtio_disk_rw]

/-- After `bwrite` and `brelse` of a slot the caller holds, every valid copy
of the block and the device hold the slot's contents. -/
theorem fresh_after_write {NBUF : Nat} {s : Bcache} {pid b : Nat} (hinv : Inv NBUF s)
    (hb : b < NBUF) (hh : holdingsleep s pid b = true) :
    Fresh (s.buf b).dev (s.buf b).blockno (s.buf b).data
      (brelse (bwrite s pid b).st pid b).st := by
  obtain ⟨w1, w2, w3⟩ := bwrite_st hh
  have hh2 : holdingsleep (bwrite s pid b).st pid b = true := by
    unfold holdingsleep at hh ⊢
    rw [w1]; exact hh
  obtain ⟨b1, b2, _, b4, b5, _, b7, b8, b9⟩ := brelse_buf hh2
  rw [w1] at b1 b2 b4 b5 b7
  rw [w2] at b8
  have hk := BUFMAP_HASH_lt (s.buf b).dev (s.buf b).blockno
  have hfb := hinv.2 _ hk b (hinv.1.2.1 b hb) (Or.inr (Or.inr (holdingsleep_locked hh).1))
  constructor
  · rw [b9]; exact w3
  · intro x hx h1 h2 h3
    rw [b8] at hx
    by_cases hxb : x = b
    · subst hxb; exact b5
    · exfalso
      rw [b7 x hxb] at h1 h2 h3
      have hfx := hinv.2 _ hk x hx (Or.inr (Or.inl h3))
      rw [h1, h2, hfb] at hfx
      exact hxb (by simpa using hfx.symm)

/-- C5, the claim at a concrete input: process 1 stores `[7]` into slot 2, which it holds for
block `(0, 1)`, writes and releases it, then checks out blocks `(0, 2)`,
`(0, 3)` and `(0, 4)`, each of which returns a slot; the third re-targets
slot 2.  A subsequent `bread` of block `(0, 1)` returns no slot: it takes the
fatal path. -/
theorem bread_after_write_can_panic :
    holdingsleep wt0 1 2 = true ∧ (wt0.buf 2).dev = 0 ∧ (wt0.buf 2).blockno = 1 ∧
    (wt0.buf 2).data = [7] ∧
    (bget wt1 1 0 2).res = Res.ok 1 ∧
    (bget (bget wt1 1 0 2).st 1 0 3).res = Res.ok 0 ∧
    (bget (bget (bget wt1 1 0 2).st 1 0 3).st 1 0 4).res = Res.ok 2 ∧
    (bread wt2 1 0 1).res = Res.panic "bget: no buffers" := by
  decide

/-- C5 as amended: let a caller hold pool slot `b` with contents `d`, write it
with `bwrite` and release it with `brelse`; after any calls of `bget`, `bread`
and `brelse` on other blocks, a `bread` of the block ends exactly as its
`bget` does, and whenever it returns a slot, that slot carries the block's
identity, its valid flag is set and its contents are `d`. -/
theorem write_through (NBUF : Nat) (s s1 : Bcache) (pid b pid1 : Nat)
    (hs : Reachable NBUF s) (hb : b < NBUF) (hh : holdingsleep s pid b = true)
    (hc : OtherCalls (s.buf b).dev (s.buf b).blockno (brelse (bwrite s pid b).st pid b).st s1) :
    (bread s1 pid1 (s.buf b).dev (s.buf b).blockno).res
      = (bget s1 pid1 (s.buf b).dev (s.buf b).blockno).res ∧
    ∀ b1, (bread s1 pid1 (s.buf b).dev (s.buf b).blockno).res = Res.ok b1 →
      ((bread s1 pid1 (s.buf b).dev (s.buf b).blockno).st.buf b1).data = (s.buf b).data ∧
      ((bread s1 pid1 (s.buf b).dev (s.buf b).blockno).st.buf b1).valid ≠ 0 ∧
      ((bread s1 pid1 (s.buf b).dev (s.buf b).blockno).st.buf b1).dev = (s.buf b).dev ∧
      ((bread s1 pid1 (s.buf b).dev (s.buf b).blockno).st.buf b1).blockno = (s.buf b).blockno := by
  refine ⟨bread_res _ _ _ _, fun b1 hret => ?_⟩
  have hfresh := fresh_other_calls hc (fresh_after_write (inv_of_reachable hs) hb hh)
  rw [bread_res] at hret
  obtain ⟨c1, c2, c3⟩ := bget_ok_contents hret
  by_cases hv : ((bget s1 pid1 (s.buf b).dev (s.buf b).blockno).st.buf b1).valid = 0
  · rw [bread_st_invalid hret hv]
    obtain ⟨f1, f2, _, f4, f5, _⟩ :=
      filled_buf_self (bget s1 pid1 (s.buf b).dev (s.buf b).blockno).st b1
    refine ⟨?_, ?_, f1.trans c1, f2.trans c2⟩
    · rw [f5, c1, c2, bget_disk]; exact hfresh.1
    · rw [f4]; decide
  · rw [bread_st_valid hret hv]
    refine ⟨?_, hv, c1, c2⟩
    rcases c3 with c3 | ⟨m, e1, e2, e3, e4⟩
    · exact absurd c3 hv
    · rw [e4]
      exact hfresh.2 b1 m e1 e2 (e3 ▸ hv)

/-- C5 as amended, at a concrete input: after `[7]` is written to block
`(0, 1)` and three other blocks are read and released, which evicts the
block, `bread` of block `(0, 1)` returns slot 1 with contents `[7]`. -/
theorem write_through_witness :
    (bread wt3 1 0 1).res = Res.ok 1 ∧
    ((bread wt3 1 0 1).st.buf 1).data = [7] ∧
    ((bread wt3 1 0 1).st.buf 1).valid ≠ 0 := by
  have hreach : Reachable 3 wt0 :=
    Reachable.store (Reachable.bget (Reachable.init 0 (fun _ _ => [])) 1 0 1) 1 2 [7]
      (by decide) (by decide)
  have hcalls : OtherCalls (wt0.buf 2).dev (wt0.buf 2).blockno
      (brelse (bwrite wt0 1 2).st 1 2).st wt3 :=
    OtherCalls.brelse (OtherCalls.bread (OtherCalls.brelse (OtherCalls.bread
      (OtherCalls.brelse (OtherCalls.bread (OtherCalls.refl _) 1 0 2 (by decide)) 1 1
        (by decide)) 1 0 3 (by decide)) 1 0 (by decide)) 1 0 4 (by decide)) 1 2 (by decide)
  have h := write_through 3 wt0 wt3 1 2 1 hreach (by decide) (by decide) hcalls
  have hret : (bread wt3 1 0 1).res = Res.ok 1 := by decide
  have h2 := h.2 1 hret
  exact ⟨hret, h2.1, h2.2.1⟩

/-! ## Lock order inside bget -/

theorem heldList_append (a b : List Ev) : ∀ held, heldList held (a ++ b) = heldList (heldList held a) b := by
  induction a with
  | nil => intro held; rfl
  | cons e a ih =>
    intro held
    cases e <;> exact ih _

theorem heldEvict_append (a b : List Ev) :
    ∀ held, heldEvict held (a ++ b) = heldEvict (heldEvict held a) b := by
  induction a with
  | nil => intro held; rfl
  | cons e a ih =>
    intro held
    cases e <;> exact ih _

theorem ascending_append (a b : List Ev) :
    ∀ held, Ascending held (a ++ b) ↔ Ascending held a ∧ Ascending (heldList held a) b := by
  induction a with
  | nil => intro held; simp [Ascending, heldList]
  | cons e a ih =>
    intro held
    cases e
    case acquire_list i =>
      show ((∀ j ∈ held, j < i) ∧ held.length ≤ 1 ∧ Ascending (i :: held) (a ++ b)) ↔ _
      rw [ih]
      show _ ↔ ((∀ j ∈ held, j < i) ∧ held.length ≤ 1 ∧ Ascending (i :: held) a) ∧
        Ascending (heldList (i :: held) a) b
      tauto
    case release_list i =>
      show (i ∈ held ∧ Ascending (held.erase i) (a ++ b)) ↔ _
      rw [ih]
      show _ ↔ (i ∈ held ∧ Ascending (held.erase i) a) ∧ Ascending (heldList (held.erase i) a) b
      tauto
    all_goals exact ih _

theorem scanStep_trace {buf : Nat → Buf} {bufmap : Nat → List Nat} {E : List Nat} {a : Nat}
    {acc : Scan} (h : ScanTrace E a acc) (ha : a < NO_BUCKET) :
    ScanTrace E (a + 1) (scanStep buf bufmap acc a) := by
  obtain ⟨h1, h2, h3, h4, h5⟩ := h
  cases hflag : (scanChain buf (bufmap a) (acc.before_least, false)).2 with
  | false =>
    rw [scanStep_of_false hflag]
    refine ⟨?_, ?_, fun hn => Nat.lt_succ_of_lt (h3 hn), ?_, ?_⟩
    · show Ascending [] (acc.tr ++ [Ev.acquire_list a, Ev.walk a, Ev.release_list a])
      rw [ascending_append, h2]
      refine ⟨h1, ?_⟩
      by_cases hn : acc.holding_bucket = NO_BUCKET
      · simp [hn, Ascending]
      · simp [hn, Ascending, h3 hn]
    · show heldList [] (acc.tr ++ [Ev.acquire_list a, Ev.walk a, Ev.release_list a]) = _
      rw [heldList_append, h2]
      simp [heldList]
    · show heldEvict [] (acc.tr ++ [Ev.acquire_list a, Ev.walk a, Ev.release_list a]) = _
      rw [heldEvict_append, h4]
      rfl
    · intro b h hm
      have hm' : Ev.unlink b h ∈ acc.tr ++ [Ev.acquire_list a, Ev.walk a, Ev.release_list a] := hm
      rcases List.mem_append.mp hm' with hm' | hm'
      · exact h5 b h hm'
      · simp at hm'
  | true =>
    rw [scanStep_of_true hflag]
    have hane : a ≠ NO_BUCKET := Nat.ne_of_lt ha
    by_cases hn : acc.holding_bucket = NO_BUCKET
    · refine ⟨?_, ?_, fun _ => Nat.lt_succ_self a, ?_, ?_⟩
      · show Ascending [] (acc.tr ++ [Ev.acquire_list a, Ev.walk a] ++
          (if acc.holding_bucket ≠ NO_BUCKET then [Ev.release_list acc.holding_bucket] else []))
        rw [ascending_append, ascending_append, heldList_append, h2]
        simp [hn, Ascending, h1]
      · show heldList [] (acc.tr ++ [Ev.acquire_list a, Ev.walk a] ++
          (if acc.holding_bucket ≠ NO_BUCKET then [Ev.release_list acc.holding_bucket] else []))
            = (if a = NO_BUCKET then [] else [a])
        rw [heldList_append, heldList_append, h2]
        simp [hn, heldList, hane]
      · show heldEvict [] (acc.tr ++ [Ev.acquire_list a, Ev.walk a] ++
          (if acc.holding_bucket ≠ NO_BUCKET then [Ev.release_list acc.holding_bucket] else []))
            = E
        rw [heldEvict_append, heldEvict_append, h4]
        simp [hn, heldEvict]
      · intro b h hm
        have hm' : Ev.unlink b h ∈ acc.tr ++ [Ev.acquire_list a, Ev.walk a] ++
          (if acc.holding_bucket ≠ NO_BUCKET then [Ev.release_list acc.holding_bucket]
            else []) := hm
        simp [hn] at hm'
        exact h5 b h hm'
    · have hlt := h3 hn
      have hne : a ≠ acc.holding_bucket := Nat.ne_of_gt hlt
      refine ⟨?_, ?_, fun _ => Nat.lt_succ_self a, ?_, ?_⟩
      · show Ascending [] (acc.tr ++ [Ev.acquire_list a, Ev.walk a] ++
          (if acc.holding_bucket ≠ NO_BUCKET then [Ev.release_list acc.holding_bucket] else []))
        rw [ascending_append, ascending_append, heldList_append, h2]
        simp [hn, Ascending, heldList, h1, hlt]
      · show heldList [] (acc.tr ++ [Ev.acquire_list a, Ev.walk a] ++
          (if acc.holding_bucket ≠ NO_BUCKET then [Ev.release_list acc.holding_bucket] else []))
            = (if a = NO_BUCKET then [] else [a])
        rw [heldList_append, heldList_append, h2]
        simp [hn, heldList, hane, hne]
      · show heldEvict [] (acc.tr ++ [Ev.acquire_list a, Ev.walk a] ++
          (if acc.holding_bucket ≠ NO_BUCKET then [Ev.release_list acc.holding_bucket] else []))
            = E
        rw [heldEvict_append, heldEvict_append, h4]
        simp [hn, heldEvict]
      · intro b h hm
        have hm' : Ev.unlink b h ∈ acc.tr ++ [Ev.acquire_list a, Ev.walk a] ++
          (if acc.holding_bucket ≠ NO_BUCKET then [Ev.release_list acc.holding_bucket]
            else []) := hm
        simp [hn] at hm'
        exact h5 b h hm'

theorem scanBuckets_trace {buf : Nat → Buf} {bufmap : Nat → List Nat} {E : List Nat} (n : Nat) :
    ∀ (a : Nat) (acc : Scan), ScanTrace E a acc → a + n ≤ NO_BUCKET →
      ScanTrace E (a + n) (scanBuckets buf bufmap (List.range' a n) acc) := by
  induction n with
  | zero => intro a acc h _; simpa [scanBuckets] using h
  | succ n ih =>
    intro a acc h hle
    have hstep := @scanStep_trace buf bufmap E a acc h (by omega)
    have := ih (a + 1) _ hstep (by omega)
    rw [List.range'_succ]
    simp only [scanBuckets]
    rw [show a + (n + 1) = a + 1 + n by omega]
    exact this

/-- The victim scan only appends events. -/
theorem scanBuckets_extends (buf : Nat → Buf) (bufmap : Nat → List Nat) (l : List Nat) :
    ∀ acc : Scan, ∃ rest, (scanBuckets buf bufmap l acc).tr = acc.tr ++ rest := by
  induction l with
  | nil => intro acc; exact ⟨[], by simp [scanBuckets]⟩
  | cons i l ih =>
    intro acc
    obtain ⟨rest, hr⟩ := ih (scanStep buf bufmap acc i)
    have hstep : ∃ r1, (scanStep buf bufmap acc i).tr = acc.tr ++ r1 := by
      cases hflag : (scanChain buf (bufmap i) (acc.before_least, false)).2 with
      | false => rw [scanStep_of_false hflag]; exact ⟨_, rfl⟩
      | true =>
        rw [scanStep_of_true hflag]
        exact ⟨_, List.append_assoc _ _ _⟩
    obtain ⟨r1, h1⟩ := hstep
    refine ⟨r1 ++ rest, ?_⟩
    show (scanBuckets buf bufmap l (scanStep buf bufmap acc i)).tr = _
    rw [hr, h1, List.append_assoc]

theorem acquiresleep_tr (s : Bcache) (pid b : Nat) (t : List Ev) :
    (acquiresleep s pid b t).tr = t ++ [Ev.acquiresleep b] := by
  unfold acquiresleep; split <;> rfl

/-- The events of `bget`, path by path. -/
theorem bget_trace (s : Bcache) (pid dev blockno : Nat) :
    (∃ b, findBuf s.buf dev blockno (s.bufmap (BUFMAP_HASH dev blockno)) = some b ∧
      (bget s pid dev blockno).tr =
        [Ev.acquire_list (BUFMAP_HASH dev blockno), Ev.walk (BUFMAP_HASH dev blockno),
          Ev.release_list (BUFMAP_HASH dev blockno), Ev.acquiresleep b]) ∨
    (∃ sc : Scan, ScanTrace [BUFMAP_HASH dev blockno] NBUFMAP_BUCKET sc ∧
      (∃ rest, sc.tr =
        [Ev.acquire_list (BUFMAP_HASH dev blockno), Ev.walk (BUFMAP_HASH dev blockno),
          Ev.release_list (BUFMAP_HASH dev blockno), Ev.acquire_evict (BUFMAP_HASH dev blockno),
          Ev.walk (BUFMAP_HASH dev blockno)] ++ rest) ∧
      ((∃ msg, (bget s pid dev blockno).res = Res.panic msg) ∧
          (bget s pid dev blockno).tr = sc.tr ∨
        ∃ v, sc.holding_bucket < NBUFMAP_BUCKET ∧
          (sc.holding_bucket = BUFMAP_HASH dev blockno ∧
              (bget s pid dev blockno).tr = sc.tr ++
                [Ev.release_list (BUFMAP_HASH dev blockno),
                  Ev.release_evict (BUFMAP_HASH dev blockno), Ev.acquiresleep v] ∨
            sc.holding_bucket ≠ BUFMAP_HASH dev blockno ∧
              (bget s pid dev blockno).tr = sc.tr ++
                [Ev.unlink v sc.holding_bucket, Ev.release_list sc.holding_bucket,
                  Ev.acquire_list (BUFMAP_HASH dev blockno),
                  Ev.splice v (BUFMAP_HASH dev blockno),
                  Ev.release_list (BUFMAP_HASH dev blockno),
                  Ev.release_evict (BUFMAP_HASH dev blockno), Ev.acquiresleep v]))) := by
  cases hf : findBuf s.buf dev blockno (s.bufmap (BUFMAP_HASH dev blockno)) with
  | some b =>
    left
    refine ⟨b, rfl, ?_⟩
    unfold bget
    simp only [hf]
    rw [acquiresleep_tr]
    rfl
  | none =>
    right
    have hst : ScanTrace [BUFMAP_HASH dev blockno] 0
        { before_least := none, holding_bucket := NO_BUCKET,
          tr := [Ev.acquire_list (BUFMAP_HASH dev blockno), Ev.walk (BUFMAP_HASH dev blockno)] ++
            [Ev.release_list (BUFMAP_HASH dev blockno), Ev.acquire_evict (BUFMAP_HASH dev blockno),
              Ev.walk (BUFMAP_HASH dev blockno)] } := by
      refine ⟨?_, ?_, ?_, ?_, ?_⟩
      · simp [Ascending]
      · simp [heldList]
      · intro h; exact absurd rfl h
      · simp [heldEvict]
      · intro b h hm; simp at hm
    have hsc := @scanBuckets_trace s.buf s.bufmap _ 13 0 _ hst (by decide)
    have hr : List.range' 0 13 = List.range NBUFMAP_BUCKET := by decide
    rw [hr] at hsc
    have hs := scan_result s.buf s.bufmap
      ([Ev.acquire_list (BUFMAP_HASH dev blockno), Ev.walk (BUFMAP_HASH dev blockno)] ++
        [Ev.release_list (BUFMAP_HASH dev blockno), Ev.acquire_evict (BUFMAP_HASH dev blockno),
          Ev.walk (BUFMAP_HASH dev blockno)])
    refine ⟨_, hsc, scanBuckets_extends _ _ _ _, ?_⟩
    cases hb : (scanBuckets s.buf s.bufmap (List.range NBUFMAP_BUCKET)
        { before_least := none, holding_bucket := NO_BUCKET,
          tr := [Ev.acquire_list (BUFMAP_HASH dev blockno), Ev.walk (BUFMAP_HASH dev blockno)] ++
            [Ev.release_list (BUFMAP_HASH dev blockno), Ev.acquire_evict (BUFMAP_HASH dev blockno),
              Ev.walk (BUFMAP_HASH dev blockno)] }).before_least with
    | none =>
      left
      constructor
      · refine ⟨"bget: no buffers", ?_⟩
        unfold bget
        simp only [hf, hb]
      · unfold bget
        simp only [hf, hb]
    | some v =>
      right
      obtain ⟨_, hlt, _⟩ := hs.2 v hb
      refine ⟨v, hlt, ?_⟩
      by_cases hm : (scanBuckets s.buf s.bufmap (List.range NBUFMAP_BUCKET)
        { before_least := none, holding_bucket := NO_BUCKET,
          tr := [Ev.acquire_list (BUFMAP_HASH dev blockno), Ev.walk (BUFMAP_HASH dev blockno)] ++
            [Ev.release_list (BUFMAP_HASH dev blockno), Ev.acquire_evict (BUFMAP_HASH dev blockno),
              Ev.walk (BUFMAP_HASH dev blockno)] }).holding_bucket = BUFMAP_HASH dev blockno
      · left
        refine ⟨hm, ?_⟩
        unfold bget
        simp only [hf, hb]
        rw [acquiresleep_tr]
        simp only [hm, ne_eq, not_true_eq_false, decide_False, Bool.false_eq_true, if_false,
          List.append_assoc]
        rfl
      · right
        refine ⟨hm, ?_⟩
        unfold bget
        simp only [hf, hb]
        rw [acquiresleep_tr]
        simp only [hm, ne_eq, not_false_eq_true, decide_True, if_true, List.append_assoc]
        rfl

/-- C9: the list-lock events of one `bget` execution.  Every acquisition of a
list lock happens while at most one other list lock is held, and that one has
a smaller index, so no more than two are ever held; when a victim is unlinked
from bucket `h`, exactly the list lock of `h` is held, it is released next,
only then is the target bucket's list lock acquired and the victim spliced;
and unless `bget` panics it ends holding no list lock and no eviction lock. -/
theorem list_lock_order (s : Bcache) (pid dev blockno : Nat) :
    Ascending [] (bget s pid dev blockno).tr ∧
    (∀ b h, Ev.unlink b h ∈ (bget s pid dev blockno).tr →
      ∃ pre, (bget s pid dev blockno).tr = pre ++
          [Ev.unlink b h, Ev.release_list h, Ev.acquire_list (BUFMAP_HASH dev blockno),
            Ev.splice b (BUFMAP_HASH dev blockno), Ev.release_list (BUFMAP_HASH dev blockno),
            Ev.release_evict (BUFMAP_HASH dev blockno), Ev.acquiresleep b] ∧
        heldList [] pre = [h] ∧ h ≠ BUFMAP_HASH dev blockno) ∧
    ((∀ msg, (bget s pid dev blockno).res ≠ Res.panic msg) →
      heldList [] (bget s pid dev blockno).tr = [] ∧
      heldEvict [] (bget s pid dev blockno).tr = []) := by
  rcases bget_trace s pid dev blockno with
    ⟨b, _, ht⟩ | ⟨sc, ⟨h1, h2, h3, h4, h5⟩, _, hp | ⟨v, hlt, hc⟩⟩
  · rw [ht]
    refine ⟨by simp [Ascending], fun b h hm => ?_, fun _ => ⟨by simp [heldList], by simp [heldEvict]⟩⟩
    simp at hm
  · obtain ⟨⟨msg, hmsg⟩, ht⟩ := hp
    rw [ht]
    exact ⟨h1, fun b h hm => absurd hm (h5 b h), fun hn => absurd hmsg (hn msg)⟩
  · have hne : sc.holding_bucket ≠ NO_BUCKET := by
      intro he
      rw [he] at hlt
      exact absurd hlt (by decide)
    rw [if_neg hne] at h2
    rcases hc with ⟨hk, ht⟩ | ⟨hk, ht⟩
    · rw [ht]
      refine ⟨?_, fun b h hm => ?_, fun _ => ⟨?_, ?_⟩⟩
      · rw [ascending_append, h2, hk]
        exact ⟨h1, by simp [Ascending]⟩
      · rcases List.mem_append.mp hm with hm | hm
        · exact absurd hm (h5 b h)
        · simp at hm
      · rw [heldList_append, h2, hk]
        simp [heldList]
      · rw [heldEvict_append, h4]
        simp [heldEvict]
    · rw [ht]
      refine ⟨?_, fun b h hm => ?_, fun _ => ⟨?_, ?_⟩⟩
      · rw [ascending_append, h2]
        exact ⟨h1, by simp [Ascending]⟩
      · rcases List.mem_append.mp hm with hm | hm
        · exact absurd hm (h5 b h)
        · have hbh : b = v ∧ h = sc.holding_bucket := by simpa using hm
          obtain ⟨e1, e2⟩ := hbh
          subst e1; subst e2
          exact ⟨sc.tr, rfl, h2, hk⟩
      · rw [heldList_append, h2]
        simp [heldList]
      · rw [heldEvict_append, h4]
        simp [heldEvict]

/-- C9 at a concrete input: the miss for block `(0, 1)` on `demo0` unlinks slot
2 from bucket 0 and splices it into bucket 1. -/
theorem list_lock_order_witness :
    Ev.unlink 2 0 ∈ (bget demo0 1 0 1).tr ∧
    (∃ pre, (bget demo0 1 0 1).tr = pre ++
        [Ev.unlink 2 0, Ev.release_list 0, Ev.acquire_list (BUFMAP_HASH 0 1),
          Ev.splice 2 (BUFMAP_HASH 0 1), Ev.release_list (BUFMAP_HASH 0 1),
          Ev.release_evict (BUFMAP_HASH 0 1), Ev.acquiresleep 2] ∧
      heldList [] pre = [0] ∧ 0 ≠ BUFMAP_HASH 0 1) :=
  ⟨by decide, (list_lock_order demo0 1 0 1).2.1 2 0 (by decide)⟩

/-- C10, the code on every fast-path miss: the events of `bget` start with the
fast-path lookup under the list lock of the target bucket, the release of
that lock, the acquisition of the target bucket's eviction lock, and the
second traversal of the target chain; when that traversal starts the caller
holds the eviction lock and no list lock. -/
theorem second_lookup_holds_no_list_lock (s : Bcache) (pid dev blockno : Nat)
    (hmiss : ∀ x ∈ s.bufmap (BUFMAP_HASH dev blockno),
      ¬ ((s.buf x).dev = dev ∧ (s.buf x).blockno = blockno)) :
    (∃ rest, (bget s pid dev blockno).tr =
      [Ev.acquire_list (BUFMAP_HASH dev blockno), Ev.walk (BUFMAP_HASH dev blockno),
        Ev.release_list (BUFMAP_HASH dev blockno), Ev.acquire_evict (BUFMAP_HASH dev blockno),
        Ev.walk (BUFMAP_HASH dev blockno)] ++ rest) ∧
    heldList [] [Ev.acquire_list (BUFMAP_HASH dev blockno), Ev.walk (BUFMAP_HASH dev blockno),
      Ev.release_list (BUFMAP_HASH dev blockno), Ev.acquire_evict (BUFMAP_HASH dev blockno)]
        = [] ∧
    heldEvict [] [Ev.acquire_list (BUFMAP_HASH dev blockno), Ev.walk (BUFMAP_HASH dev blockno),
      Ev.release_list (BUFMAP_HASH dev blockno), Ev.acquire_evict (BUFMAP_HASH dev blockno)]
        = [BUFMAP_HASH dev blockno] := by
  refine ⟨?_, by simp [heldList], by simp [heldEvict]⟩
  rcases bget_trace s pid dev blockno with
    ⟨b, hb, _⟩ | ⟨sc, _, ⟨rest, hrest⟩, ⟨_, ht⟩ | ⟨v, _, ⟨_, ht⟩ | ⟨_, ht⟩⟩⟩
  · rw [findBuf_none.mpr hmiss] at hb; cases hb
  · exact ⟨rest, by rw [ht, hrest]⟩
  · exact ⟨rest ++ _, by rw [ht, hrest, List.append_assoc]⟩
  · exact ⟨rest ++ _, by rw [ht, hrest, List.append_assoc]⟩

/-- C10 at the failing input: the miss for block `(0, 1)` on `demo0`, whose
first five events are the fast-path lookup of bucket 1 under its list lock,
the release of that lock, the acquisition of the eviction lock of bucket 1
and the second traversal of bucket 1. -/
theorem second_lookup_holds_no_list_lock_witness :
    (bget demo0 1 0 1).tr.take 5 =
      [Ev.acquire_list 1, Ev.walk 1, Ev.release_list 1, Ev.acquire_evict 1, Ev.walk 1] ∧
    (∃ rest, (bget demo0 1 0 1).tr =
      [Ev.acquire_list (BUFMAP_HASH 0 1), Ev.walk (BUFMAP_HASH 0 1),
        Ev.release_list (BUFMAP_HASH 0 1), Ev.acquire_evict (BUFMAP_HASH 0 1),
        Ev.walk (BUFMAP_HASH 0 1)] ++ rest) ∧
    heldList [] ((bget demo0 1 0 1).tr.take 4) = [] ∧
    heldEvict [] ((bget demo0 1 0 1).tr.take 4) = [1] :=
  ⟨by decide, (second_lookup_holds_no_list_lock demo0 1 0 1 (by decide)).1, by decide,
    by decide⟩

/-! ## Lock discipline of bwrite and brelse -/

/-- C7: `bwrite` and `brelse` take the panic path exactly when the caller does
not hold the slot's sleeplock; on that path the state is untouched and no
event, in particular no device write, has happened; with the lock held,
`bwrite` performs exactly one device write, of the slot's contents to the
slot's block, and `brelse` completes. -/
theorem lock_discipline (s : Bcache) (pid b : Nat) :
    ((bwrite s pid b).res = Res.panic "bwrite" ↔ holdingsleep s pid b = false) ∧
    ((brelse s pid b).res = Res.panic "brelse" ↔ holdingsleep s pid b = false) ∧
    (holdingsleep s pid b = false →
      (bwrite s pid b).st = s ∧ (bwrite s pid b).tr = [] ∧
      (brelse s pid b).st = s ∧ (brelse s pid b).tr = []) ∧
    (holdingsleep s pid b = true →
      (bwrite s pid b).res = Res.ok () ∧
      (bwrite s pid b).tr = [Ev.disk_write (s.buf b).dev (s.buf b).blockno (s.buf b).data] ∧
      (bwrite s pid b).st.disk (s.buf b).dev (s.buf b).blockno = (s.buf b).data ∧
      (bwrite s pid b).st.buf = s.buf ∧
      (brelse s pid b).res = Res.ok () ∧
      ((brelse s pid b).st.buf b).locked = false) := by
  by_cases h : holdingsleep s pid b = true
  · obtain ⟨w1, _, w3⟩ := bwrite_st h
    obtain ⟨_, _, _, _, _, b6, _, _, _⟩ := brelse_buf h
    have r1 : (bwrite s pid b).res = Res.ok () := by simp [bwrite, h]
    have r2 : (brelse s pid b).res = Res.ok () := by simp [brelse, h]
    have r3 : (bwrite s pid b).tr =
        [Ev.disk_write (s.buf b).dev (s.buf b).blockno (s.buf b).data] := by simp [bwrite, h]
    refine ⟨?_, ?_, fun hc => ?_, fun _ => ⟨r1, r3, w3, w1, r2, b6⟩⟩
    · rw [r1, h]; simp
    · rw [r2, h]; simp
    · rw [h] at hc; cases hc
  · have hf : holdingsleep s pid b = false := by simpa using h
    have r1 : (bwrite s pid b).res = Res.panic "bwrite" := by simp [bwrite, hf]
    have r2 : (brelse s pid b).res = Res.panic "brelse" := by simp [brelse, hf]
    have r3 : (bwrite s pid b).st = s ∧ (bwrite s pid b).tr = [] := by simp [bwrite, hf]
    have r4 : (brelse s pid b).tr = [] := by simp [brelse, hf]
    refine ⟨?_, ?_, fun _ => ⟨r3.1, r3.2, brelse_panic hf, r4⟩, fun hc => ?_⟩
    · rw [r1, hf]; simp
    · rw [r2, hf]; simp
    · rw [hf] at hc; cases hc

/-- C7 at a concrete input: process 1 holds slot 2 of `demo1`, process 7 does not. -/
theorem lock_discipline_witness :
    (bwrite demo1 7 2).res = Res.panic "bwrite" ∧ (brelse demo1 7 2).res = Res.panic "brelse" ∧
    (bwrite demo1 1 2).res = Res.ok () ∧ (brelse demo1 1 2).res = Res.ok () := by
  have h7 := lock_discipline demo1 7 2
  have h1 := lock_discipline demo1 1 2
  have e7 : holdingsleep demo1 7 2 = false := by decide
  have e1 : holdingsleep demo1 1 2 = true := by decide
  exact ⟨h7.1.2 e7, h7.2.1.2 e7, (h1.2.2.2 e1).1, (h1.2.2.2 e1).2.2.2.2.1⟩

/-! ## Recency stamping -/

/-- C8, what the code does on a decrement: `brelse` by the holder of the
sleeplock lowers the reference count by one and stamps the tick counter
exactly when the count goes from 1 to 0; `bunpin` lowers the count by one and
never writes the recency stamp, also when the count goes from 1 to 0. -/
theorem recency_stamping (s : Bcache) (pid b : Nat) :
    (holdingsleep s pid b = true →
      ((brelse s pid b).st.buf b).refcnt = (s.buf b).refcnt - 1 ∧
      ((s.buf b).refcnt = 1 → ((brelse s pid b).st.buf b).lastuse = s.ticks) ∧
      ((s.buf b).refcnt ≠ 1 → ((brelse s pid b).st.buf b).lastuse = (s.buf b).lastuse)) ∧
    ((bunpin s b).st.buf b).refcnt = (s.buf b).refcnt - 1 ∧
    ((bunpin s b).st.buf b).lastuse = (s.buf b).lastuse := by
  refine ⟨fun h => ⟨(brelse_buf h).2.2.1, fun h1 => ?_, fun h1 => ?_⟩, ?_, ?_⟩
  · unfold brelse
    simp only [h, Bool.true_eq_false, if_false, releasesleep, setBuf_same]
    rw [if_pos (by omega)]
  · unfold brelse
    simp only [h, Bool.true_eq_false, if_false, releasesleep, setBuf_same]
    rw [if_neg (by omega)]
  · simp [bunpin]
  · simp [bunpin]

/-- C8 at the failing input: in `pinned` slot 2 has reference count 1, left by
`bget`, `bpin` and `brelse`, and the tick counter is 5.  `bunpin` takes the
count from 1 to 0 and leaves the recency stamp at its old value 0.  On
`demo2`, where the last reference is dropped by `brelse`, the stamp becomes
the tick counter 5. -/
theorem recency_stamping_witness :
    (pinned.buf 2).refcnt = 1 ∧ pinned.ticks = 5 ∧ (pinned.buf 2).lastuse = 0 ∧
    ((bunpin pinned 2).st.buf 2).refcnt = 0 ∧ ((bunpin pinned 2).st.buf 2).lastuse = 0 ∧
    (demo2.buf 2).refcnt = 1 ∧ demo2.ticks = 5 ∧
    ((brelse demo2 1 2).st.buf 2).refcnt = 0 ∧ ((brelse demo2 1 2).st.buf 2).lastuse = 5 := by
  have h := recency_stamping pinned 1 2
  have h2 := recency_stamping demo2 1 2
  have e1 : (pinned.buf 2).refcnt = 1 := by decide
  have e2 : (pinned.buf 2).lastuse = 0 := by decide
  have e3 : (demo2.buf 2).refcnt = 1 := by decide
  have hb := h2.1 (by decide)
  refine ⟨e1, by decide, e2, ?_, ?_, e3, by decide, ?_, ?_⟩
  · rw [h.2.1, e1]; decide
  · rw [h.2.2, e2]
  · rw [hb.1, e3]; decide
  · rw [hb.2.1 e3]; decide

end BufCache
